import Mathlib

/-!
Verification development for the XiSort external float sorter
(`src/core.py`, `src/cli.py`).

Shallow embedding conventions:
* A 64-bit IEEE-754 double is represented by its bit pattern, a natural
  number below `2^64`.  Field extraction (`expf`, `frac`), classification
  (`isNaNb`, `isInfb`, `isZerob`) and the key codec `ieee_key` are direct
  translations of the numpy code in `core.py`.
* The numeric value of a finite pattern is represented by `scaledVal`,
  the exact real value multiplied by `2^1074` (the scale of the smallest
  subnormal).  This integer is order-isomorphic to the IEEE numeric value,
  so numeric comparisons of finite doubles are comparisons of `scaledVal`.
* `u64` complement `~b` is written `2^64 - 1 - b`, and `b | MASK` for a
  pattern with clear sign bit is written `b + 2^63`; both are exact for
  patterns below `2^64`.
* Exact rational arithmetic stands in for float arithmetic in the metric
  transform and the constructor check; `np.cos(np.pi * n)` is abstracted
  as a function parameter `cosPi` since cosine is transcendental.
-/

namespace XiSort

/-- Sign-bit mask `MASK = 0x8000_0000_0000_0000` (from `core.py`). -/
def MASK : Nat := 2 ^ 63

/-- Sentinel base `SENT = 0xFFFF_FFFF_FFFF_FFF8` of the five sentinel keys. -/
def SENT : Nat := 18446744073709551608

/-- Sentinel key for `-inf` (`SENT + 0`). -/
def K_NEGINF : Nat := SENT

/-- Sentinel key for `+inf` (`SENT + 1`). -/
def K_POSINF : Nat := SENT + 1

/-- Sentinel key for `-0.0` (`SENT + 2`). -/
def K_NEG0 : Nat := SENT + 2

/-- Sentinel key for `+0.0` (`SENT + 3`). -/
def K_POS0 : Nat := SENT + 3

/-- Sentinel key for NaN (`SENT + 4`). -/
def K_NAN : Nat := SENT + 4

/-- Exponent field of a 64-bit pattern (bits 52..62). -/
def expf (b : Nat) : Nat := b / 2 ^ 52 % 2 ^ 11

/-- Fraction (mantissa) field of a 64-bit pattern (bits 0..51). -/
def frac (b : Nat) : Nat := b % 2 ^ 52

/-- Sign bit set (`bits & MASK != 0` for patterns below `2^64`). -/
def signbit (b : Nat) : Prop := 2 ^ 63 ≤ b

instance (b : Nat) : Decidable (signbit b) := by unfold signbit; infer_instance

/-- Predicate for `np.isnan`: exponent field all ones and nonzero fraction. -/
def isNaNb (b : Nat) : Prop := expf b = 2047 ∧ frac b ≠ 0

instance (b : Nat) : Decidable (isNaNb b) := by unfold isNaNb; infer_instance

/-- Predicate for `np.isinf` (either sign): exponent field all ones, zero fraction. -/
def isInfb (b : Nat) : Prop := expf b = 2047 ∧ frac b = 0

instance (b : Nat) : Decidable (isInfb b) := by unfold isInfb; infer_instance

/-- Predicate for `np.isposinf`. -/
def isPosInfb (b : Nat) : Prop := isInfb b ∧ ¬ signbit b

instance (b : Nat) : Decidable (isPosInfb b) := by unfold isPosInfb; infer_instance

/-- Predicate for `np.isneginf`. -/
def isNegInfb (b : Nat) : Prop := isInfb b ∧ signbit b

instance (b : Nat) : Decidable (isNegInfb b) := by unfold isNegInfb; infer_instance

/-- The pattern denotes a finite double (zero included). -/
def isFinb (b : Nat) : Prop := expf b ≠ 2047

instance (b : Nat) : Decidable (isFinb b) := by unfold isFinb; infer_instance

/-- The pattern denotes `+0.0` or `-0.0` (`a == 0.0` in IEEE). -/
def isZerob (b : Nat) : Prop := expf b = 0 ∧ frac b = 0

instance (b : Nat) : Decidable (isZerob b) := by unfold isZerob; infer_instance

/-- The streaming mask `np.isnan(arr) | np.isinf(arr)`: the value is
diverted to the tail. -/
def isTailb (b : Nat) : Prop := isNaNb b ∨ isInfb b

instance (b : Nat) : Decidable (isTailb b) := by unfold isTailb; infer_instance

/-- Key codec `ieee_key` from `core.py`, element-wise.  The numpy code first sets
`key = ~bits` (sign set) or `bits | MASK` (sign clear) and then overwrites
the disjoint classes -inf, +inf, -0.0, +0.0, NaN with the five sentinels.
For a pattern with sign bit set, `~bits = 2^64 - 1 - b`; with sign bit
clear, `bits | MASK = b + 2^63`. -/
def ieee_key (b : Nat) : Nat :=
  if isNaNb b then K_NAN
  else if isNegInfb b then K_NEGINF
  else if isPosInfb b then K_POSINF
  else if isZerob b then (if signbit b then K_NEG0 else K_POS0)
  else if signbit b then 2 ^ 64 - 1 - b
  else b + 2 ^ 63

/-- Magnitude of a finite pattern in units of `2^-1074`:
subnormals (`expf = 0`) denote `frac * 2^-1074`; normals denote
`(2^52 + frac) * 2^(expf - 1075)`. -/
def mag (b : Nat) : Nat :=
  if expf b = 0 then frac b else (2 ^ 52 + frac b) * 2 ^ (expf b - 1)

/-- Exact numeric value of a finite pattern, scaled by `2^1074`.
Order-isomorphic to the IEEE numeric value of the double; in particular
`scaledVal` of both zero patterns is `0`. -/
def scaledVal (b : Nat) : Int :=
  if signbit b then -(mag b : Int) else (mag b : Int)

/-! ### Sort records and the k-way merge

One 32-byte record of `REC_F` / `REC_I` (`val, key, tie, seq`).  The `tie`
field is a `u64` equal to the key under the VALUE tie-break and a float
otherwise; both variants embed order-isomorphically into `ℚ`, which is
what matters for the comparator `(key, tie, seq)`. -/

structure Rec where
  val : Nat
  key : Nat
  tie : ℚ
  seq : Nat
deriving DecidableEq, Repr

/-- Lexicographic comparator on `(key, tie, seq)` used by the in-chunk
`rec.sort(order=("key","tie","seq"))` and by `heapq.merge`. -/
def recLe (a b : Rec) : Prop :=
  a.key < b.key ∨ (a.key = b.key ∧ (a.tie < b.tie ∨ (a.tie = b.tie ∧ a.seq ≤ b.seq)))

instance (a b : Rec) : Decidable (recLe a b) := by unfold recLe; infer_instance

instance : IsTotal Rec recLe := by
  constructor
  intro a b
  unfold recLe
  rcases Nat.lt_trichotomy a.key b.key with h | h | h
  · exact Or.inl (Or.inl h)
  · rcases lt_trichotomy a.tie b.tie with h2 | h2 | h2
    · exact Or.inl (Or.inr ⟨h, Or.inl h2⟩)
    · rcases Nat.le_total a.seq b.seq with h3 | h3
      · exact Or.inl (Or.inr ⟨h, Or.inr ⟨h2, h3⟩⟩)
      · exact Or.inr (Or.inr ⟨h.symm, Or.inr ⟨h2.symm, h3⟩⟩)
    · exact Or.inr (Or.inr ⟨h.symm, Or.inl h2⟩)
  · exact Or.inr (Or.inl h)

instance : IsTrans Rec recLe := by
  constructor
  intro a b c hab hbc
  unfold recLe at *
  rcases hab with h1 | ⟨h1, h1t⟩
  · rcases hbc with h2 | ⟨h2, _⟩
    · exact Or.inl (h1.trans h2)
    · exact Or.inl (h2 ▸ h1)
  · rcases hbc with h2 | ⟨h2, h2t⟩
    · exact Or.inl (h1 ▸ h2)
    · refine Or.inr ⟨h1.trans h2, ?_⟩
      rcases h1t with ht1 | ⟨ht1, hs1⟩
      · rcases h2t with ht2 | ⟨ht2, _⟩
        · exact Or.inl (ht1.trans ht2)
        · exact Or.inl (ht2 ▸ ht1)
      · rcases h2t with ht2 | ⟨ht2, hs2⟩
        · exact Or.inl (ht1 ▸ ht2)
        · exact Or.inr ⟨ht1.trans ht2, hs1.trans hs2⟩

/-- Binary merge of two record streams, as performed lazily by
`heapq.merge`.  Since every record carries a globally unique `seq`, the
comparator is a strict total order on the records of one run and the
sorted merged sequence is unique, so a binary merge models the k-way
heap merge exactly. -/
def merge2F : Nat → List Rec → List Rec → List Rec
  | 0, _, _ => []
  | _ + 1, [], l => l
  | _ + 1, a :: as, [] => a :: as
  | f + 1, a :: as, b :: bs =>
    if recLe a b then a :: merge2F f as (b :: bs) else b :: merge2F f (a :: as) bs

/-- Two-way merge with the fuel fixed at the total length, so the
recursion is structural (in the fuel) and kernel-reducible. -/
def merge2 (l r : List Rec) : List Rec := merge2F (l.length + r.length) l r

/-- Fold of binary merges over the chunk streams (`heapq.merge(*readers)`). -/
def mergeAll (ls : List (List Rec)) : List Rec :=
  ls.foldr merge2 []

/-! ### Configuration and the metric transform -/

/-- Sorting mode (`class Mode`). -/
inductive Mode where
  | STRICT
  | CURVED
deriving DecidableEq, Repr

/-- Tie-break strategy (`class TieBreak`). -/
inductive TieBreak where
  | VALUE
  | INDEX
  | RANDOM
  | SHUFFLE
deriving DecidableEq, Repr

/-- Exact value of the 64-bit float `math.pi` (`0x400921FB54442D18`),
used by the constructor check `epsilon * math.pi >= 1`. -/
def piQ : ℚ := 884279719003555 / 281474976710656

/-- Exact value of `np.finfo(float64).tiny`, the smallest positive
normal double `2^-1022`. -/
def tinyQ : ℚ := 1 / 2 ^ 1022

/-- Metric transform `XiSort._metric`, on exact rationals.  `cosPi n` abstracts the float
computation `np.cos(np.pi * n)` (cosine is transcendental; the claims
under test only use that `cos(pi * 0) = 1` exactly, which holds for the
float computation as well).  STRICT returns the input; CURVED normalizes
by the chunk min / max and applies the perturbation — note that the
`span <= tiny` branch zeroes only `norm`, after which
`norm + eps * cos(pi * norm)` is still added. -/
def metric (cosPi : ℚ → ℚ) (eps : ℚ) (mode : Mode) (a : List ℚ) : List ℚ :=
  match mode with
  | .STRICT => a
  | .CURVED =>
    match a with
    | [] => []
    | x :: xs =>
      let lo := xs.foldl min x
      let hi := xs.foldl max x
      let span := hi - lo
      let norm : List ℚ :=
        if span ≤ tinyQ then (x :: xs).map (fun _ => 0)
        else (x :: xs).map (fun v => (v - lo) / span)
      norm.map (fun n => n + eps * cosPi n)

/-- Result of `XiSort.__init__`: either a configuration error or a
constructed instance (the working directory is created only after both
validation checks pass, so an error escapes before any scratch-file
activity). -/
structure InitCfg where
  wdCreated : Bool
deriving DecidableEq, Repr

/-- The validation in `XiSort.__init__`: `epsilon * math.pi >= 1` is a
fatal configuration error, as is `require_deterministic` without an
explicit seed.  Arithmetic is exact rational arithmetic on the float
values. -/
def xiInit (eps : ℚ) (reqDet : Bool) (seed : Option Int) : Except String InitCfg :=
  if 1 ≤ eps * piQ then .error "eps too large (pi * eps must be < 1)"
  else if reqDet && seed.isNone then .error "deterministic=True requires explicit seed"
  else .ok { wdCreated := true }

/-! ### The streaming run model

`stream_sort` is modelled as a pure state machine over the list of input
bit patterns.  Abstracted ingredients, all passed as parameters:

* `metricD`: the `self._metric` map on the finite block of a chunk
  (identity in STRICT mode; the CURVED float computation otherwise).
* `tieR`: the PRNG doubles used for RANDOM / SHUFFLE ties, indexed by the
  record's global sequence number.
* `shuffleC`, `shuffleE`: the Fisher-Yates shuffles applied to a chunk's
  nonfinite block (`nan_shuffle`) and to the emitted tail; the real ones
  always permute, which theorems assume as an explicit hypothesis (the
  rejection-sampling loop inside `randint` has no a-priori bound).
* `resPick`: the reservoir replacement draws `rng.randint(i+1)`.

File contents are modelled as the record lists / raw value lists that the
writer stores, since reader and writer use identical bytes and the BLAKE3
tag verification can only fail under external corruption. -/

/-- Fatal streaming errors: scratch quota (`MemoryError`) and sequence
counter exhaustion (`OverflowError`). -/
inductive RErr where
  | budget
  | overflow
deriving DecidableEq, Repr

structure Params where
  tb : TieBreak
  nanShuffle : Bool
  maxBytes : Nat
  metricD : List Nat → List Nat
  tieR : Nat → ℚ
  shuffleC : List Nat → List Nat
  shuffleE : List Nat → List Nat
  resPick : Nat → Nat

/-- Mutable state of one `stream_sort` run before the `finally` block. -/
structure BState where
  gseq : Nat
  idx : Nat
  disk : Nat
  fsB : Nat
  trace : List Nat
  chunkFiles : List Nat
  leaked : Option Nat
  tailTmp : Option (List Nat)
  sealed : Bool
  recs : List (List Rec)
  err : Option RErr
deriving Repr

def st0 : BState :=
  { gseq := 0, idx := 0, disk := 0, fsB := 0, trace := [], chunkFiles := [],
    leaked := none, tailTmp := none, sealed := false, recs := [], err := none }

/-- Split the input stream into chunks of capacity `cs`
(the `while i < chunk_size: buf[i] = next(it)` loop; with `cs = 0` the
loop body never runs and the stream ends immediately). -/
def chunksOfF : Nat → Nat → List Nat → List (List Nat)
  | 0, _, _ => []
  | f + 1, cs, l =>
    if cs = 0 ∨ l = [] then []
    else l.take cs :: chunksOfF f cs (l.drop cs)

/-- Chunking with the fuel fixed at `l.length + 1`: each round consumes
at least one element, so the fuel never runs out and the recursion is
structural (kernel-reducible). -/
def chunksOf (cs : Nat) (l : List Nat) : List (List Nat) :=
  chunksOfF (l.length + 1) cs l

/-- Boolean form of the tail mask `np.isnan(arr) | np.isinf(arr)`. -/
def isTailB (b : Nat) : Bool := decide (isTailb b)

/-- The `tie` field of one record (`core.py` lines 198-203). -/
def tieOf (p : Params) (k : Nat) (s : Nat) : ℚ :=
  match p.tb with
  | .VALUE => (k : ℚ)
  | .INDEX => (s : ℚ)
  | .RANDOM => p.tieR s
  | .SHUFFLE => p.tieR s

/-- Build the record array of one chunk from the finite values paired
with their keys, with sequence numbers starting at `g`. -/
def mkRecs (p : Params) (g : Nat) (vks : List (Nat × Nat)) : List Rec :=
  vks.enum.map (fun ik =>
    { val := ik.2.1, key := ik.2.2, tie := tieOf p ik.2.2 (g + ik.1), seq := g + ik.1 })

/-- A filesystem mutation: update the on-disk byte count and record the
new total as one observable instant. -/
def fsAdd (st : BState) (n : Nat) : BState :=
  { st with fsB := st.fsB + n, trace := st.trace ++ [st.fsB + n] }

/-- Budget charge `XiSort._budget` with a nonnegative delta: bump the tracked counter,
raise `MemoryError` when it passes the quota. -/
def budgetStep (maxB : Nat) (st : BState) (delta : Nat) : BState :=
  let d := st.disk + delta
  if maxB < d then { st with disk := d, err := some .budget }
  else { st with disk := d }

/-- Append a chunk's nonfinite block to the tail temp file (lines
181-190): optional `nan_shuffle`, raw write of `8 * len` bytes, then the
budget check. -/
def tailStep (p : Params) (st : BState) (tl : List Nat) : BState :=
  if tl.isEmpty then st
  else
    let tl2 := if p.nanShuffle then p.shuffleC tl else tl
    budgetStep p.maxBytes
      (fsAdd { st with tailTmp := some (st.tailTmp.getD [] ++ tl2) } (8 * tl2.length))
      (8 * tl2.length)

/-- Key, sort and persist a chunk's finite block (lines 192-220): the
overflow guard, record construction, in-memory sort, file write
(`32 * n + 16` bytes), budget check.  A chunk file whose budget check
fails was already written but is never added to `chunks` (the cleanup
list); it is recorded as `leaked`. -/
def finStep (p : Params) (st : BState) (fin : List Nat) : BState :=
  if st.err.isSome then st
  else if fin.isEmpty then st
  else if 2 ^ 64 - 1 < st.gseq + fin.length then { st with err := some .overflow }
  else
    let ks := (p.metricD fin).map ieee_key
    let sorted := List.insertionSort recLe (mkRecs p st.gseq (fin.zip ks))
    let size := 32 * sorted.length + 16
    let st3 := budgetStep p.maxBytes (fsAdd { st with gseq := st.gseq + fin.length } size) size
    if st3.err.isSome then { st3 with leaked := some size }
    else { st3 with chunkFiles := st3.chunkFiles ++ [size],
                    recs := st3.recs ++ [sorted], idx := st3.idx + 1 }

/-- One iteration of the chunk loop in `stream_sort` (lines 166-220). -/
def processChunk (p : Params) (st : BState) (chunk : List Nat) : BState :=
  if st.err.isSome then st
  else finStep p (tailStep p st (chunk.filter (fun b => isTailB b)))
    (chunk.filter (fun b => ! isTailB b))

/-- The chunking phase plus the tail seal (append the 16-byte tag,
rename `tail.tmp` to `tail.fin`, charge 16 bytes). -/
def runBody (p : Params) (cs : Nat) (input : List Nat) : BState :=
  let st := (chunksOf cs input).foldl (processChunk p) st0
  if st.err.isSome then st
  else
    match st.tailTmp with
    | none => st
    | some _ => budgetStep p.maxBytes (fsAdd { st with sealed := true } 16) 16

/-- Reservoir capacity of the large-tail path:
`64 MiB / itemsize = 2^23` doubles. -/
def RESCAP : Nat := 8388608

/-- The Vitter-R reservoir of `_tail_emit` for payloads over 512 MiB:
fill the buffer with the first `cap` elements, then for the `i`-th
remaining element draw `m = randint(cap + i + 1)` (abstracted as
`pick i`) and overwrite slot `m` when `m < cap`. -/
def reservoir (pick : Nat → Nat) (cap : Nat) (l : List Nat) : List Nat :=
  ((l.drop cap).foldl
    (fun bc x => (if pick bc.2 < cap then bc.1.set (pick bc.2) x else bc.1, bc.2 + 1))
    (l.take cap, 0)).1

/-- Tail emission `_tail_emit`: payloads of at most 512 MiB (`2^26` doubles) are
shuffled and emitted whole; larger payloads are reservoir-sampled down to
`RESCAP` doubles, shuffled, and emitted. -/
def emitTail (p : Params) (tl : List Nat) : List Nat :=
  if tl.isEmpty then []
  else if 8 * tl.length ≤ 536870912 then p.shuffleE tl
  else p.shuffleE (reservoir p.resPick RESCAP tl)

/-- Observable result of a whole `stream_sort` run, `finally` block
included. -/
structure RunResult where
  output : List Nat
  mergedRecs : List Rec
  err : Option RErr
  trace : List Nat
  bytesAfter : Nat
  leakedBytes : Nat
  wdRemoved : Bool
  createdChunks : Nat
  tailCreated : Bool
deriving Repr

/-- The cleanup loop: remove each tracked file in turn, recording the
shrinking on-disk total after each removal. -/
def removeFiles (fsB : Nat) (sizes : List Nat) : Nat × List Nat :=
  sizes.foldl (fun acc s => (acc.1 - s, acc.2 ++ [acc.1 - s])) (fsB, [])

/-- The tail portion of the output stream: emitted only when a sealed
tail file exists (`if tail_fin: yield from _tail_emit(...)`). -/
def tailOut (p : Params) (st : BState) : List Nat :=
  match st.tailTmp with
  | none => []
  | some tl => if st.sealed then emitTail p tl else []

/-- On-disk size of the tail file: 8 bytes per stored value plus the
16-byte tag once sealed. -/
def tailBytes (st : BState) : Nat :=
  match st.tailTmp with
  | none => 0
  | some tl => 8 * tl.length + (if st.sealed then 16 else 0)

/-- A complete `stream_sort` run: chunk phase, tail seal, k-way merge of
the chunk records (yielding `val` fields), tail emission, then the
`finally` cleanup.  An error raised in the chunk phase propagates before
anything is yielded.  Cleanup removes the files in `chunks` plus the tail
file; a `leaked` chunk file is not tracked and survives, in which case
the working directory is left behind. -/
def runFull (p : Params) (cs : Nat) (input : List Nat) : RunResult :=
  let st := runBody p cs input
  let merged := mergeAll st.recs
  let out :=
    if st.err.isSome then []
    else merged.map Rec.val ++ tailOut p st
  let tailSizes : List Nat := if st.tailTmp.isSome then [tailBytes st] else []
  let rm := removeFiles st.fsB (st.chunkFiles ++ tailSizes)
  { output := out
    mergedRecs := merged
    err := st.err
    trace := st.trace ++ rm.2
    bytesAfter := rm.1
    leakedBytes := st.leaked.getD 0
    wdRemoved := st.leaked.isNone
    createdChunks := st.idx + (if st.leaked.isSome then 1 else 0)
    tailCreated := st.tailTmp.isSome }

/-- Wellformedness of one record in a STRICT-mode run: the stored value
is a finite pattern and the key column is its `ieee_key`. -/
def recOK (r : Rec) : Prop := isFinb r.val ∧ r.val < 2 ^ 64 ∧ r.key = ieee_key r.val

/-- Budget safety: while no `MemoryError` has been raised, the tracked
counter equals the bytes on disk, both are within quota, and every
observed on-disk total so far was within quota. -/
def budgetInv (maxB : Nat) (st : BState) : Prop :=
  st.err ≠ some .budget →
    (st.disk = st.fsB ∧ st.disk ≤ maxB ∧ ∀ t ∈ st.trace, t ≤ maxB)

/-- On-disk accounting through the chunk phase: the byte total is the
tracked chunk files plus the (unsealed) tail file plus a possibly leaked
chunk file, the seal flag is still clear, and no file has leaked while no
error has been raised. -/
def chunkInv (st : BState) : Prop :=
  st.sealed = false ∧ (st.err = none → st.leaked = none) ∧
  st.fsB = st.chunkFiles.sum + 8 * (st.tailTmp.getD []).length + st.leaked.getD 0

/-- The property claimed of adjacent (and by transitivity all ordered)
pairs of the output stream in a STRICT run: nonfinite values only follow
nonfinite values; finite nonzero values are numerically non-decreasing;
zeros are only followed by zeros among the finite values; and `+0.0`
never precedes `-0.0`. -/
def outPairOk (x y : Nat) : Prop :=
  (isTailb x → isTailb y) ∧
  (isFinb x → ¬ isZerob x → isFinb y → ¬ isZerob y → scaledVal x ≤ scaledVal y) ∧
  (isZerob x → isFinb y → isZerob y) ∧
  ¬ (x = 0 ∧ y = 2 ^ 63)

/-! ### Concrete run evaluations used by counterexamples -/

/-- The quiet-NaN pattern `0x7FF8000000000000`. -/
def nanB : Nat := 9221120237041090560

/-- STRICT / VALUE parameters with a roomy quota, identity shuffles, and
fixed PRNG draws. -/
def cexParams : Params :=
  { tb := .VALUE, nanShuffle := false, maxBytes := 2 ^ 62, metricD := id,
    tieR := fun _ => 0, shuffleC := id, shuffleE := id, resPick := fun _ => 0 }

/-- Parameters with a zero scratch quota (`max_gb = 0`). -/
def cexParams0 : Params :=
  { tb := .VALUE, nanShuffle := false, maxBytes := 0, metricD := id,
    tieR := fun _ => 0, shuffleC := id, shuffleE := id, resPick := fun _ => 0 }

/-- Parameters with a 10-byte scratch quota. -/
def cexParams9 : Params :=
  { tb := .VALUE, nanShuffle := false, maxBytes := 10, metricD := id,
    tieR := fun _ => 0, shuffleC := id, shuffleE := id, resPick := fun _ => 0 }

/-! ### Theorems -/

theorem expf_eq_div {b : Nat} (hb : b < 2 ^ 63) : expf b = b / 2 ^ 52 := by
  unfold expf
  apply Nat.mod_eq_of_lt
  have : b < 2 ^ 11 * 2 ^ 52 := by norm_num at hb ⊢; omega
  exact (Nat.div_lt_iff_lt_mul (by norm_num)).mpr (by omega)

/-- IEEE magnitude is strictly monotone in the bit pattern on the
sign-cleared half, subnormal / normal boundary included. -/
theorem mag_lt_mag {a b : Nat} (ha : a < 2 ^ 63) (hb : b < 2 ^ 63) (hab : a < b) :
    mag a < mag b := by
  have hea : expf a = a / 2 ^ 52 := expf_eq_div ha
  have heb : expf b = b / 2 ^ 52 := expf_eq_div hb
  have hfa : frac a = a % 2 ^ 52 := rfl
  have hfb : frac b = b % 2 ^ 52 := rfl
  have hlex : a / 2 ^ 52 < b / 2 ^ 52 ∨
      (a / 2 ^ 52 = b / 2 ^ 52 ∧ a % 2 ^ 52 < b % 2 ^ 52) := by omega
  have hfa2 : a % 2 ^ 52 < 2 ^ 52 := Nat.mod_lt _ (by norm_num)
  have hfb2 : b % 2 ^ 52 < 2 ^ 52 := Nat.mod_lt _ (by norm_num)
  unfold mag
  rw [hea, heb, hfa, hfb]
  by_cases hb0 : b / 2 ^ 52 = 0
  · have ha0 : a / 2 ^ 52 = 0 := by omega
    have hr : a % 2 ^ 52 < b % 2 ^ 52 := by omega
    simp only [ha0, hb0, if_pos rfl]
    exact hr
  · simp only [if_neg hb0]
    by_cases ha0 : a / 2 ^ 52 = 0
    · simp only [ha0, if_pos rfl]
      calc a % 2 ^ 52 < 2 ^ 52 := hfa2
        _ ≤ (2 ^ 52 + b % 2 ^ 52) * 1 := by omega
        _ ≤ (2 ^ 52 + b % 2 ^ 52) * 2 ^ (b / 2 ^ 52 - 1) :=
            Nat.mul_le_mul_left _ (Nat.one_le_two_pow)
    · simp only [if_neg ha0]
      rcases hlex with hq | ⟨hq, hr⟩
      · calc (2 ^ 52 + a % 2 ^ 52) * 2 ^ (a / 2 ^ 52 - 1)
            < 2 ^ 53 * 2 ^ (a / 2 ^ 52 - 1) :=
              mul_lt_mul_of_pos_right (by omega) (pow_pos (by norm_num) _)
          _ = 2 ^ 52 * 2 ^ (a / 2 ^ 52) := by
              rw [← pow_add, ← pow_add]; congr 1; omega
          _ ≤ 2 ^ 52 * 2 ^ (b / 2 ^ 52 - 1) :=
              Nat.mul_le_mul_left _ (Nat.pow_le_pow_right (by norm_num) (by omega))
          _ ≤ (2 ^ 52 + b % 2 ^ 52) * 2 ^ (b / 2 ^ 52 - 1) :=
              Nat.mul_le_mul_right _ (by omega)
      · rw [hq]
        exact mul_lt_mul_of_pos_right (by omega) (pow_pos (by norm_num) _)

theorem mag_lt_iff {a b : Nat} (ha : a < 2 ^ 63) (hb : b < 2 ^ 63) :
    mag a < mag b ↔ a < b := by
  constructor
  · intro h
    by_contra hle
    rcases Nat.lt_or_ge b a with h2 | h2
    · exact absurd (mag_lt_mag hb ha h2) (by omega)
    · have : a = b := by omega
      subst this; omega
  · exact mag_lt_mag ha hb

theorem mag_pos {b : Nat} (hb : b < 2 ^ 63) (hnz : b ≠ 0) : 0 < mag b := by
  unfold mag
  by_cases h0 : expf b = 0
  · have he : expf b = b / 2 ^ 52 := expf_eq_div hb
    have : b < 2 ^ 52 := by
      rcases Nat.lt_or_ge b (2 ^ 52) with h | h
      · exact h
      · exfalso
        have : 1 ≤ b / 2 ^ 52 := (Nat.one_le_div_iff (by norm_num)).mpr h
        omega
    have : frac b = b := Nat.mod_eq_of_lt this
    simp only [if_pos h0, this]
    omega
  · simp only [if_neg h0]
    exact Nat.mul_pos (by positivity) (pow_pos (by norm_num) _)

/-- The exponent / fraction fields ignore the sign bit: subtracting
`2^63` from a sign-set pattern leaves `expf`, `frac` and `mag` unchanged. -/
theorem mag_sub_sign {b : Nat} (h1 : 2 ^ 63 ≤ b) (h2 : b < 2 ^ 64) :
    mag b = mag (b - 2 ^ 63) := by
  obtain ⟨c, rfl⟩ : ∃ c, b = c + 2 ^ 63 := ⟨b - 2 ^ 63, by omega⟩
  have hc : c < 2 ^ 63 := by omega
  have hfr : frac (c + 2 ^ 63) = frac c := by
    unfold frac
    have : c + 2 ^ 63 = c + 2 ^ 11 * 2 ^ 52 := by norm_num
    rw [this, Nat.add_mul_mod_self_right]
  have hex : expf (c + 2 ^ 63) = expf c := by
    unfold expf
    have h1 : c + 2 ^ 63 = c + 2 ^ 11 * 2 ^ 52 := by norm_num
    rw [h1, Nat.add_mul_div_right _ _ (by norm_num : (0:Nat) < 2 ^ 52),
      Nat.add_mod_right]
  unfold mag
  rw [hfr, hex]
  simp

theorem isZerob_iff {b : Nat} (hb : b < 2 ^ 64) :
    isZerob b ↔ b = 0 ∨ b = 2 ^ 63 := by
  unfold isZerob expf frac
  constructor
  · rintro ⟨he, hf⟩
    omega
  · rintro (rfl | rfl) <;> norm_num

theorem isFinb_expf_le {b : Nat} (hb : b < 2 ^ 64) (hf : isFinb b) :
    b % 2 ^ 63 < 2047 * 2 ^ 52 := by
  unfold isFinb expf at hf
  omega

theorem key_pos_eq {b : Nat} (hb : b < 2 ^ 63) (hfin : isFinb b)
    (hnz : ¬ isZerob b) : ieee_key b = b + 2 ^ 63 := by
  unfold isFinb at hfin
  unfold ieee_key
  rw [if_neg (by unfold isNaNb; tauto), if_neg (by unfold isNegInfb isInfb; tauto),
    if_neg (by unfold isPosInfb isInfb; tauto), if_neg hnz,
    if_neg (by unfold signbit; omega)]

theorem key_neg_eq {b : Nat} (hb1 : 2 ^ 63 ≤ b) (hb2 : b < 2 ^ 64)
    (hfin : isFinb b) (hnz : ¬ isZerob b) : ieee_key b = 2 ^ 64 - 1 - b := by
  unfold isFinb at hfin
  unfold ieee_key
  rw [if_neg (by unfold isNaNb; tauto), if_neg (by unfold isNegInfb isInfb; tauto),
    if_neg (by unfold isPosInfb isInfb; tauto), if_neg hnz,
    if_pos (by unfold signbit; omega)]

/-- The key of a finite nonzero pattern lies strictly below all five
sentinels (`[0, SENT)`). -/
theorem key_finNZ_lt_SENT {b : Nat} (hb : b < 2 ^ 64) (hfin : isFinb b)
    (hnz : ¬ isZerob b) : ieee_key b < SENT := by
  by_cases hs : 2 ^ 63 ≤ b
  · rw [key_neg_eq hs hb hfin hnz]
    unfold SENT
    omega
  · rw [key_pos_eq (by omega) hfin hnz]
    have := isFinb_expf_le hb hfin
    unfold SENT
    omega

theorem scaledVal_pos_eq {b : Nat} (hb : b < 2 ^ 63) :
    scaledVal b = (mag b : Int) := by
  unfold scaledVal
  rw [if_neg (by unfold signbit; omega)]

theorem scaledVal_neg_eq {b : Nat} (hb : 2 ^ 63 ≤ b) :
    scaledVal b = -(mag b : Int) := by
  unfold scaledVal
  rw [if_pos (show signbit b from hb)]

/-- Strict monotonicity of the key codec on finite nonzero patterns:
the key order is exactly the numeric order. -/
theorem key_lt_iff_scaledVal_lt {a b : Nat} (ha4 : a < 2 ^ 64) (hb4 : b < 2 ^ 64)
    (hafin : isFinb a) (hbfin : isFinb b)
    (hanz : ¬ isZerob a) (hbnz : ¬ isZerob b) :
    ieee_key a < ieee_key b ↔ scaledVal a < scaledVal b := by
  have hza := (isZerob_iff ha4).not.mp hanz
  have hzb := (isZerob_iff hb4).not.mp hbnz
  by_cases hsa : 2 ^ 63 ≤ a <;> by_cases hsb : 2 ^ 63 ≤ b
  · -- both negative
    rw [key_neg_eq hsa ha4 hafin hanz, key_neg_eq hsb hb4 hbfin hbnz,
      scaledVal_neg_eq hsa, scaledVal_neg_eq hsb,
      mag_sub_sign hsa ha4, mag_sub_sign hsb hb4]
    have hiff := mag_lt_iff (a := b - 2 ^ 63) (b := a - 2 ^ 63)
      (by omega) (by omega)
    constructor
    · intro h
      have : b - 2 ^ 63 < a - 2 ^ 63 := by omega
      have := hiff.mpr this
      omega
    · intro h
      have : mag (b - 2 ^ 63) < mag (a - 2 ^ 63) := by omega
      have := hiff.mp this
      omega
  · -- a negative, b positive: key a < key b and value a < value b
    rw [key_neg_eq hsa ha4 hafin hanz, key_pos_eq (by omega) hbfin hbnz,
      scaledVal_neg_eq hsa, scaledVal_pos_eq (by omega)]
    have hma : 0 < mag (a - 2 ^ 63) := mag_pos (by omega) (by omega)
    rw [mag_sub_sign hsa ha4]
    constructor
    · intro _; omega
    · intro _; omega
  · -- a positive, b negative: both sides false
    rw [key_pos_eq (by omega) hafin hanz, key_neg_eq hsb hb4 hbfin hbnz,
      scaledVal_pos_eq (by omega), scaledVal_neg_eq hsb]
    constructor
    · intro h; omega
    · intro h
      have : (0:Int) ≤ (mag a : Int) := by positivity
      omega
  · -- both positive
    rw [key_pos_eq (by omega) hafin hanz, key_pos_eq (by omega) hbfin hbnz,
      scaledVal_pos_eq (by omega), scaledVal_pos_eq (by omega)]
    have hiff := mag_lt_iff (a := a) (b := b) (by omega) (by omega)
    omega

theorem key_le_iff_scaledVal_le {a b : Nat} (ha4 : a < 2 ^ 64) (hb4 : b < 2 ^ 64)
    (hafin : isFinb a) (hbfin : isFinb b)
    (hanz : ¬ isZerob a) (hbnz : ¬ isZerob b) :
    ieee_key a ≤ ieee_key b ↔ scaledVal a ≤ scaledVal b := by
  have h1 := key_lt_iff_scaledVal_lt hb4 ha4 hbfin hafin hbnz hanz
  omega

theorem merge2F_fuel_eq : ∀ (f g : Nat) (l r : List Rec),
    l.length + r.length ≤ f → l.length + r.length ≤ g →
    merge2F f l r = merge2F g l r := by
  intro f
  induction f with
  | zero =>
    intro g l r hf _
    rcases l with _ | ⟨a, as⟩
    · rcases r with _ | ⟨b, bs⟩
      · cases g <;> rfl
      · simp at hf
    · simp at hf
  | succ f ih =>
    intro g l r hf hg
    rcases l with _ | ⟨a, as⟩
    · rcases r with _ | ⟨b, bs⟩
      · cases g <;> rfl
      · cases g with
        | zero => simp at hg
        | succ g => rfl
    · rcases r with _ | ⟨b, bs⟩
      · cases g with
        | zero => simp at hg
        | succ g => rfl
      · cases g with
        | zero => simp at hg
        | succ g =>
          show (if recLe a b then a :: merge2F f as (b :: bs)
              else b :: merge2F f (a :: as) bs) =
            (if recLe a b then a :: merge2F g as (b :: bs)
              else b :: merge2F g (a :: as) bs)
          simp only [List.length_cons] at hf hg
          by_cases h : recLe a b
          · rw [if_pos h, if_pos h,
              ih g as (b :: bs) (by simp only [List.length_cons]; omega)
                (by simp only [List.length_cons]; omega)]
          · rw [if_neg h, if_neg h,
              ih g (a :: as) bs (by simp only [List.length_cons]; omega)
                (by simp only [List.length_cons]; omega)]

theorem merge2_nil : ∀ r : List Rec, merge2 [] r = r
  | [] => rfl
  | _ :: _ => rfl

theorem merge2_cons_nil (a : Rec) (as : List Rec) : merge2 (a :: as) [] = a :: as := rfl

theorem merge2_cons_cons (a b : Rec) (as bs : List Rec) :
    merge2 (a :: as) (b :: bs) =
      if recLe a b then a :: merge2 as (b :: bs) else b :: merge2 (a :: as) bs := by
  have h1 : merge2 (a :: as) (b :: bs) =
      if recLe a b then a :: merge2F (as.length + 1 + bs.length) as (b :: bs)
      else b :: merge2F (as.length + 1 + bs.length) (a :: as) bs := rfl
  rw [h1]
  by_cases h : recLe a b
  · rw [if_pos h, if_pos h]
    show _ = a :: merge2F (as.length + (b :: bs).length) as (b :: bs)
    rw [merge2F_fuel_eq (as.length + 1 + bs.length) (as.length + (b :: bs).length)
      as (b :: bs) (by simp only [List.length_cons]; omega)
      (by simp only [List.length_cons]; omega)]
  · rw [if_neg h, if_neg h]
    show _ = b :: merge2F ((a :: as).length + bs.length) (a :: as) bs
    rw [merge2F_fuel_eq (as.length + 1 + bs.length) ((a :: as).length + bs.length)
      (a :: as) bs (by simp only [List.length_cons]; omega)
      (by simp only [List.length_cons]; omega)]

theorem merge2_perm : ∀ (l r : List Rec), List.Perm (merge2 l r) (l ++ r)
  | [], l => by simp [merge2_nil]
  | a :: as, [] => by simp [merge2_cons_nil]
  | a :: as, b :: bs => by
    rw [merge2_cons_cons]
    by_cases h : recLe a b
    · rw [if_pos h]
      exact (merge2_perm as (b :: bs)).cons a
    · rw [if_neg h]
      have h1 : List.Perm (b :: merge2 (a :: as) bs) (b :: (a :: as ++ bs)) :=
        (merge2_perm (a :: as) bs).cons b
      refine h1.trans ?_
      have h2 : List.Perm (b :: (a :: (as ++ bs))) (a :: (b :: (as ++ bs))) :=
        List.Perm.swap a b _
      refine h2.trans ?_
      exact (List.Perm.cons a (List.perm_middle).symm)
termination_by l r => l.length + r.length

theorem merge2_sorted : ∀ {l r : List Rec},
    l.Sorted recLe → r.Sorted recLe → (merge2 l r).Sorted recLe
  | [], r, _, hr => by simpa [merge2_nil] using hr
  | a :: as, [], hl, _ => by simpa [merge2_cons_nil] using hl
  | a :: as, b :: bs, hl, hr => by
    rw [merge2_cons_cons]
    by_cases h : recLe a b
    · rw [if_pos h]
      rw [List.sorted_cons] at hl ⊢
      refine ⟨?_, merge2_sorted hl.2 hr⟩
      intro x hx
      have := (merge2_perm as (b :: bs)).mem_iff.mp hx
      rcases List.mem_append.mp this with h1 | h1
      · exact hl.1 x h1
      · rcases List.mem_cons.mp h1 with rfl | h2
        · exact h
        · rw [List.sorted_cons] at hr
          exact Trans.trans h (hr.1 x h2)
    · rw [if_neg h]
      have hba : recLe b a := (total_of recLe a b).resolve_left h
      rw [List.sorted_cons] at hr ⊢
      refine ⟨?_, merge2_sorted hl hr.2⟩
      intro x hx
      have := (merge2_perm (a :: as) bs).mem_iff.mp hx
      rcases List.mem_append.mp this with h1 | h1
      · rcases List.mem_cons.mp h1 with rfl | h2
        · exact hba
        · rw [List.sorted_cons] at hl
          exact Trans.trans hba (hl.1 x h2)
      · exact hr.1 x h1
termination_by l r => l.length + r.length

theorem mergeAll_perm (ls : List (List Rec)) :
    List.Perm (mergeAll ls) ls.flatten := by
  induction ls with
  | nil => simp [mergeAll]
  | cons l ls ih =>
    simp only [mergeAll, List.foldr_cons, List.flatten_cons]
    exact (merge2_perm l _).trans (List.Perm.append_left l ih)

theorem mergeAll_sorted (ls : List (List Rec))
    (h : ∀ l ∈ ls, l.Sorted recLe) : (mergeAll ls).Sorted recLe := by
  induction ls with
  | nil => simp [mergeAll, List.Sorted]
  | cons l ls ih =>
    simp only [mergeAll, List.foldr_cons]
    exact merge2_sorted (h l (by simp)) (ih (fun x hx => h x (by simp [hx])))

theorem reservoir_length (pick : Nat → Nat) (cap : Nat) (l : List Nat) :
    (reservoir pick cap l).length = min cap l.length := by
  unfold reservoir
  have hgen : ∀ (rest : List Nat) (buf : List Nat) (c : Nat),
      ((rest.foldl
        (fun bc x => (if pick bc.2 < cap then bc.1.set (pick bc.2) x else bc.1, bc.2 + 1))
        (buf, c)).1).length = buf.length := by
    intro rest
    induction rest with
    | nil => intro buf c; rfl
    | cons x xs ih =>
      intro buf c
      rw [List.foldl_cons]
      dsimp only
      split
      · rw [ih]
        exact List.length_set _ _ _
      · exact ih buf (c + 1)
  rw [hgen]
  exact List.length_take cap l

theorem reservoir_mem (pick : Nat → Nat) (cap : Nat) (l : List Nat) :
    ∀ x ∈ reservoir pick cap l, x ∈ l := by
  unfold reservoir
  have hgen : ∀ (rest : List Nat) (buf : List Nat) (c : Nat),
      (∀ y ∈ buf, y ∈ l) → (∀ y ∈ rest, y ∈ l) →
      ∀ x ∈ ((rest.foldl
        (fun bc x => (if pick bc.2 < cap then bc.1.set (pick bc.2) x else bc.1, bc.2 + 1))
        (buf, c)).1), x ∈ l := by
    intro rest
    induction rest with
    | nil => intro buf c hb _ x hx; exact hb x hx
    | cons y ys ih =>
      intro buf c hb hr x hx
      rw [List.foldl_cons] at hx
      dsimp only at hx
      split at hx
      · refine ih _ _ ?_ (fun z hz => hr z (by simp [hz])) x hx
        intro z hz
        rcases List.mem_or_eq_of_mem_set hz with hz | rfl
        · exact hb z hz
        · exact hr z (by simp)
      · exact ih _ _ hb (fun z hz => hr z (by simp [hz])) x hx
  intro x hx
  refine hgen _ _ _ (fun y hy => List.mem_of_mem_take hy)
    (fun y hy => List.mem_of_mem_drop hy) x hx

theorem emitTail_perm (p : Params) (tl : List Nat)
    (hse : ∀ l, List.Perm (p.shuffleE l) l)
    (hlen : 8 * tl.length ≤ 536870912) : List.Perm (emitTail p tl) tl := by
  unfold emitTail
  by_cases hemp : tl.isEmpty
  · rw [if_pos hemp]
    have : tl = [] := List.isEmpty_iff.mp hemp
    subst this
    exact List.Perm.refl _
  · rw [if_neg hemp, if_pos hlen]
    exact hse tl

theorem emitTail_mem (p : Params) (tl : List Nat)
    (hse : ∀ l, List.Perm (p.shuffleE l) l) :
    ∀ x ∈ emitTail p tl, x ∈ tl := by
  unfold emitTail
  split
  · simp
  · split
    · intro x hx
      exact ((hse tl).mem_iff).mp hx
    · intro x hx
      exact reservoir_mem _ _ _ x (((hse _).mem_iff).mp hx)

/-! ### Structural lemmas about the run model -/

@[simp] theorem fsAdd_gseq (st : BState) (n : Nat) : (fsAdd st n).gseq = st.gseq := rfl

@[simp] theorem fsAdd_idx (st : BState) (n : Nat) : (fsAdd st n).idx = st.idx := rfl

@[simp] theorem fsAdd_disk (st : BState) (n : Nat) : (fsAdd st n).disk = st.disk := rfl

@[simp] theorem fsAdd_fsB (st : BState) (n : Nat) : (fsAdd st n).fsB = st.fsB + n := rfl

@[simp] theorem fsAdd_trace (st : BState) (n : Nat) :
    (fsAdd st n).trace = st.trace ++ [st.fsB + n] := rfl

@[simp] theorem fsAdd_chunkFiles (st : BState) (n : Nat) :
    (fsAdd st n).chunkFiles = st.chunkFiles := rfl

@[simp] theorem fsAdd_leaked (st : BState) (n : Nat) : (fsAdd st n).leaked = st.leaked := rfl

@[simp] theorem fsAdd_tailTmp (st : BState) (n : Nat) : (fsAdd st n).tailTmp = st.tailTmp := rfl

@[simp] theorem fsAdd_sealed (st : BState) (n : Nat) : (fsAdd st n).sealed = st.sealed := rfl

@[simp] theorem fsAdd_recs (st : BState) (n : Nat) : (fsAdd st n).recs = st.recs := rfl

@[simp] theorem fsAdd_err (st : BState) (n : Nat) : (fsAdd st n).err = st.err := rfl

@[simp] theorem budgetStep_gseq (m : Nat) (st : BState) (d : Nat) :
    (budgetStep m st d).gseq = st.gseq := by unfold budgetStep; dsimp only; split <;> rfl

@[simp] theorem budgetStep_idx (m : Nat) (st : BState) (d : Nat) :
    (budgetStep m st d).idx = st.idx := by unfold budgetStep; dsimp only; split <;> rfl

@[simp] theorem budgetStep_disk (m : Nat) (st : BState) (d : Nat) :
    (budgetStep m st d).disk = st.disk + d := by unfold budgetStep; dsimp only; split <;> rfl

@[simp] theorem budgetStep_fsB (m : Nat) (st : BState) (d : Nat) :
    (budgetStep m st d).fsB = st.fsB := by unfold budgetStep; dsimp only; split <;> rfl

@[simp] theorem budgetStep_trace (m : Nat) (st : BState) (d : Nat) :
    (budgetStep m st d).trace = st.trace := by unfold budgetStep; dsimp only; split <;> rfl

@[simp] theorem budgetStep_chunkFiles (m : Nat) (st : BState) (d : Nat) :
    (budgetStep m st d).chunkFiles = st.chunkFiles := by unfold budgetStep; dsimp only; split <;> rfl

@[simp] theorem budgetStep_leaked (m : Nat) (st : BState) (d : Nat) :
    (budgetStep m st d).leaked = st.leaked := by unfold budgetStep; dsimp only; split <;> rfl

@[simp] theorem budgetStep_tailTmp (m : Nat) (st : BState) (d : Nat) :
    (budgetStep m st d).tailTmp = st.tailTmp := by unfold budgetStep; dsimp only; split <;> rfl

@[simp] theorem budgetStep_sealed (m : Nat) (st : BState) (d : Nat) :
    (budgetStep m st d).sealed = st.sealed := by unfold budgetStep; dsimp only; split <;> rfl

@[simp] theorem budgetStep_recs (m : Nat) (st : BState) (d : Nat) :
    (budgetStep m st d).recs = st.recs := by unfold budgetStep; dsimp only; split <;> rfl

theorem budgetStep_err (m : Nat) (st : BState) (d : Nat) :
    (budgetStep m st d).err = if m < st.disk + d then some .budget else st.err := by
  unfold budgetStep; dsimp only; split <;> simp_all

theorem chunksOfF_fuel_eq : ∀ (f g : Nat) (cs : Nat) (l : List Nat),
    l.length < f → l.length < g → chunksOfF f cs l = chunksOfF g cs l := by
  intro f
  induction f with
  | zero => intro g cs l hf _; omega
  | succ f ih =>
    intro g cs l hf hg
    cases g with
    | zero => omega
    | succ g =>
      show (if cs = 0 ∨ l = [] then []
          else l.take cs :: chunksOfF f cs (l.drop cs)) =
        (if cs = 0 ∨ l = [] then []
          else l.take cs :: chunksOfF g cs (l.drop cs))
      by_cases h : cs = 0 ∨ l = []
      · rw [if_pos h, if_pos h]
      · rw [if_neg h]
        rw [if_neg h]
        push_neg at h
        have hlp : 0 < l.length := List.length_pos.mpr h.2
        have hcp : 0 < cs := Nat.pos_of_ne_zero h.1
        rw [ih g cs (l.drop cs)
          (by rw [List.length_drop]; omega) (by rw [List.length_drop]; omega)]

theorem chunksOf_eq (cs : Nat) (l : List Nat) :
    chunksOf cs l =
      if cs = 0 ∨ l = [] then [] else l.take cs :: chunksOf cs (l.drop cs) := by
  show chunksOfF (l.length + 1) cs l = _
  have h1 : chunksOfF (l.length + 1) cs l =
      if cs = 0 ∨ l = [] then []
      else l.take cs :: chunksOfF l.length cs (l.drop cs) := rfl
  rw [h1]
  by_cases h : cs = 0 ∨ l = []
  · rw [if_pos h, if_pos h]
  · rw [if_neg h, if_neg h]
    push_neg at h
    have hlp : 0 < l.length := List.length_pos.mpr h.2
    have hcp : 0 < cs := Nat.pos_of_ne_zero h.1
    show _ = _ :: chunksOfF ((l.drop cs).length + 1) cs (l.drop cs)
    rw [chunksOfF_fuel_eq l.length ((l.drop cs).length + 1) cs (l.drop cs)
      (by rw [List.length_drop]; omega) (by rw [List.length_drop]; omega)]

theorem chunksOf_nil (cs : Nat) : chunksOf cs ([] : List Nat) = [] := by
  rw [chunksOf_eq]; simp

theorem chunksOf_flatten_aux {cs : Nat} (hcs : 1 ≤ cs) :
    ∀ (n : Nat) (l : List Nat), l.length ≤ n → (chunksOf cs l).flatten = l := by
  intro n
  induction n with
  | zero =>
    intro l hl
    have : l = [] := List.length_eq_zero.mp (by omega)
    subst this
    rw [chunksOf_nil]; rfl
  | succ n ih =>
    intro l hl
    rw [chunksOf_eq]
    split
    case isTrue h =>
      rcases h with h | h
      · omega
      · subst h; rfl
    case isFalse h =>
      push_neg at h
      have hlne : l ≠ [] := h.2
      have hlen : (l.drop cs).length ≤ n := by
        rw [List.length_drop]
        have : 0 < l.length := List.length_pos.mpr hlne
        omega
      rw [List.flatten_cons, ih _ hlen, List.take_append_drop]

theorem chunksOf_flatten {cs : Nat} (hcs : 1 ≤ cs) (l : List Nat) :
    (chunksOf cs l).flatten = l :=
  chunksOf_flatten_aux hcs l.length l le_rfl

@[simp] theorem st0_gseq : st0.gseq = 0 := rfl

@[simp] theorem st0_idx : st0.idx = 0 := rfl

@[simp] theorem st0_disk : st0.disk = 0 := rfl

@[simp] theorem st0_fsB : st0.fsB = 0 := rfl

@[simp] theorem st0_trace : st0.trace = [] := rfl

@[simp] theorem st0_chunkFiles : st0.chunkFiles = [] := rfl

@[simp] theorem st0_leaked : st0.leaked = none := rfl

@[simp] theorem st0_tailTmp : st0.tailTmp = none := rfl

@[simp] theorem st0_sealed : st0.sealed = false := rfl

@[simp] theorem st0_recs : st0.recs = [] := rfl

@[simp] theorem st0_err : st0.err = none := rfl

theorem tailStep_recs (p : Params) (st : BState) (tl : List Nat) :
    (tailStep p st tl).recs = st.recs := by
  unfold tailStep; split <;> simp

theorem tailStep_gseq (p : Params) (st : BState) (tl : List Nat) :
    (tailStep p st tl).gseq = st.gseq := by
  unfold tailStep; split <;> simp

theorem tailStep_chunkFiles (p : Params) (st : BState) (tl : List Nat) :
    (tailStep p st tl).chunkFiles = st.chunkFiles := by
  unfold tailStep; split <;> simp

theorem tailStep_leaked (p : Params) (st : BState) (tl : List Nat) :
    (tailStep p st tl).leaked = st.leaked := by
  unfold tailStep; split <;> simp

theorem tailStep_sealed (p : Params) (st : BState) (tl : List Nat) :
    (tailStep p st tl).sealed = st.sealed := by
  unfold tailStep; split <;> simp

theorem tailStep_idx (p : Params) (st : BState) (tl : List Nat) :
    (tailStep p st tl).idx = st.idx := by
  unfold tailStep; split <;> simp

/-- The tail write lands before its budget check, so `tailTmp` grows even
when the check fails. -/
theorem tailStep_tailTmp (p : Params) (st : BState) (tl : List Nat) :
    (tailStep p st tl).tailTmp =
      if tl.isEmpty then st.tailTmp
      else some (st.tailTmp.getD [] ++ (if p.nanShuffle then p.shuffleC tl else tl)) := by
  unfold tailStep; split <;> simp

theorem budgetStep_err_none {m : Nat} {st : BState} {d : Nat}
    (h : (budgetStep m st d).err = none) : st.err = none := by
  rw [budgetStep_err] at h
  split at h
  · exact Option.noConfusion h
  · exact h

theorem tailStep_err_none {p : Params} {st : BState} {tl : List Nat}
    (h : (tailStep p st tl).err = none) : st.err = none := by
  unfold tailStep at h
  split at h
  · exact h
  · dsimp only at h
    have h2 := budgetStep_err_none h
    exact h2

theorem finStep_err_none {p : Params} {st : BState} {fin : List Nat}
    (h : (finStep p st fin).err = none) : st.err = none := by
  unfold finStep at h
  split at h
  · exact h
  · split at h
    · exact h
    · split at h
      · exact Option.noConfusion h
      · dsimp only at h
        split at h
        · have h2 := budgetStep_err_none h
          exact h2
        · have h2 := budgetStep_err_none h
          exact h2

theorem processChunk_err_none {p : Params} {st : BState} {c : List Nat}
    (h : (processChunk p st c).err = none) : st.err = none := by
  unfold processChunk at h
  split at h
  · exact h
  · exact tailStep_err_none (finStep_err_none h)

theorem isTailb_iff (b : Nat) : isTailb b ↔ ¬ isFinb b := by
  unfold isTailb isNaNb isInfb isFinb
  by_cases h : frac b = 0 <;> tauto

/-- The record accumulator either stays or gains the freshly sorted
chunk. -/
theorem finStep_recs_cases (p : Params) (st : BState) (fin : List Nat) :
    (finStep p st fin).recs = st.recs ∨
    (finStep p st fin).recs = st.recs ++
      [List.insertionSort recLe (mkRecs p st.gseq (fin.zip ((p.metricD fin).map ieee_key)))] := by
  unfold finStep
  split
  · exact Or.inl rfl
  · split
    · exact Or.inl rfl
    · split
      · exact Or.inl rfl
      · dsimp only
        split
        · exact Or.inl (by simp)
        · exact Or.inr (by simp)

theorem processChunk_recs_cases (p : Params) (st : BState) (c : List Nat) :
    (processChunk p st c).recs = st.recs ∨
    ∃ (g : Nat), (processChunk p st c).recs = st.recs ++
      [List.insertionSort recLe (mkRecs p g ((c.filter (fun b => ! isTailB b)).zip
        ((p.metricD (c.filter (fun b => ! isTailB b))).map ieee_key)))] := by
  unfold processChunk
  split
  · exact Or.inl rfl
  · rcases finStep_recs_cases p (tailStep p st (c.filter (fun b => isTailB b)))
      (c.filter (fun b => ! isTailB b)) with h | h
    · rw [h, tailStep_recs]
      exact Or.inl rfl
    · rw [h, tailStep_recs]
      exact Or.inr ⟨_, rfl⟩

/-- Every accumulated chunk record list is sorted by `(key, tie, seq)`:
each one is produced by `rec.sort(order=("key","tie","seq"))`. -/
theorem foldl_recs_sorted (p : Params) (cks : List (List Nat)) :
    ∀ st : BState, (∀ l ∈ st.recs, l.Sorted recLe) →
    ∀ l ∈ (cks.foldl (processChunk p) st).recs, l.Sorted recLe := by
  induction cks with
  | nil => intro st h; simpa using h
  | cons c cks ih =>
    intro st h
    rw [List.foldl_cons]
    apply ih
    rcases processChunk_recs_cases p st c with hc | ⟨g, hc⟩
    · rw [hc]; exact h
    · rw [hc]
      intro l hl
      rcases List.mem_append.mp hl with hl | hl
      · exact h l hl
      · rcases List.mem_singleton.mp hl with rfl
        exact List.sorted_insertionSort recLe _

theorem runBody_recs_sorted (p : Params) (cs : Nat) (input : List Nat) :
    ∀ l ∈ (runBody p cs input).recs, l.Sorted recLe := by
  unfold runBody
  dsimp only
  split
  · exact foldl_recs_sorted p _ st0 (by simp [st0])
  · split
    · exact foldl_recs_sorted p _ st0 (by simp [st0])
    · simp only [budgetStep_recs, fsAdd_recs]
      exact foldl_recs_sorted p _ st0 (by simp [st0])

/-- The `val` column of a chunk's record array is the finite block
itself (`rec["val"] = finite`). -/
theorem mkRecs_map_val (p : Params) (g : Nat) (vks : List (Nat × Nat)) :
    (mkRecs p g vks).map Rec.val = vks.map Prod.fst := by
  unfold mkRecs
  rw [List.map_map]
  have h1 : (Rec.val ∘ fun ik : Nat × (Nat × Nat) =>
      ({ val := ik.2.1, key := ik.2.2, tie := tieOf p ik.2.2 (g + ik.1), seq := g + ik.1 } : Rec)) =
      (Prod.fst ∘ Prod.snd) := rfl
  rw [h1, ← List.map_map, List.enum_map_snd]

theorem finStep_tailTmp (p : Params) (st : BState) (fin : List Nat) :
    (finStep p st fin).tailTmp = st.tailTmp := by
  unfold finStep
  split
  · rfl
  · split
    · rfl
    · split
      · rfl
      · dsimp only
        split <;> simp

/-- A successful `finStep` appends exactly the finite block to the
value column of the accumulated records. -/
theorem finStep_spec (p : Params) (st : BState) (fin : List Nat)
    (hm : ∀ l, (p.metricD l).length = l.length)
    (h : (finStep p st fin).err = none) :
    List.Perm ((finStep p st fin).recs.flatten.map Rec.val)
      (st.recs.flatten.map Rec.val ++ fin) := by
  unfold finStep at h ⊢
  split at h
  · rename_i herr
    rw [if_pos herr]
    have hpre : st.err = none := h
    rw [hpre] at herr
    simp at herr
  · rename_i herr
    rw [if_neg herr]
    split at h
    · rename_i hemp
      rw [if_pos hemp]
      have : fin = [] := List.isEmpty_iff.mp hemp
      subst this
      simp
    · rename_i hemp
      rw [if_neg hemp]
      split at h
      · exact Option.noConfusion h
      · rename_i hov
        rw [if_neg hov]
        dsimp only at h ⊢
        split at h
        · rename_i hbud
          rw [if_pos hbud]
          have h2 := budgetStep_err_none h
          rw [fsAdd_err] at h2
          dsimp only at h2
          rw [budgetStep_err] at h
          split at h
          · exact Option.noConfusion h
          · rename_i hq
            simp only [budgetStep_err] at hbud
            split at hbud
            · omega
            · simp_all
        · rename_i hbud
          rw [if_neg hbud]
          dsimp only
          simp only [budgetStep_recs, fsAdd_recs]
          rw [List.flatten_append, List.map_append]
          apply List.Perm.append_left
          have hperm : List.Perm
              (List.insertionSort recLe (mkRecs p st.gseq (fin.zip ((p.metricD fin).map ieee_key))))
              (mkRecs p st.gseq (fin.zip ((p.metricD fin).map ieee_key))) :=
            List.perm_insertionSort recLe _
          have hv := hperm.map Rec.val
          rw [mkRecs_map_val, List.map_fst_zip _ _ (by rw [List.length_map, hm])] at hv
          simpa using hv

/-- `tailStep` appends exactly the chunk's nonfinite block (possibly
shuffled) to the tail contents. -/
theorem tailStep_tail_perm (p : Params) (st : BState) (tl : List Nat)
    (hsc : ∀ l, List.Perm (p.shuffleC l) l) :
    List.Perm ((tailStep p st tl).tailTmp.getD []) (st.tailTmp.getD [] ++ tl) := by
  rw [tailStep_tailTmp]
  split
  · rename_i hemp
    have : tl = [] := List.isEmpty_iff.mp hemp
    subst this
    simp
  · simp only [Option.getD_some]
    apply List.Perm.append_left
    split
    · exact hsc tl
    · exact List.Perm.refl tl

theorem processChunk_spec (p : Params) (st : BState) (c : List Nat)
    (hm : ∀ l, (p.metricD l).length = l.length)
    (hsc : ∀ l, List.Perm (p.shuffleC l) l)
    (h : (processChunk p st c).err = none) :
    List.Perm ((processChunk p st c).recs.flatten.map Rec.val)
      (st.recs.flatten.map Rec.val ++ c.filter (fun b => ! isTailB b)) ∧
    List.Perm ((processChunk p st c).tailTmp.getD [])
      (st.tailTmp.getD [] ++ c.filter (fun b => isTailB b)) := by
  have hpre : st.err = none := processChunk_err_none h
  unfold processChunk at h ⊢
  rw [if_neg (by simp [hpre])] at h ⊢
  constructor
  · have h1 := finStep_spec p (tailStep p st (c.filter (fun b => isTailB b)))
      (c.filter (fun b => ! isTailB b)) hm h
    rw [tailStep_recs] at h1
    exact h1
  · rw [finStep_tailTmp]
    exact tailStep_tail_perm p st _ hsc

theorem foldl_err_none {p : Params} {cks : List (List Nat)} :
    ∀ {st : BState}, (cks.foldl (processChunk p) st).err = none → st.err = none := by
  induction cks with
  | nil => intro st h; exact h
  | cons c cks ih =>
    intro st h
    rw [List.foldl_cons] at h
    exact processChunk_err_none (ih h)

theorem runBody_recs_eq (p : Params) (cs : Nat) (input : List Nat) :
    (runBody p cs input).recs = ((chunksOf cs input).foldl (processChunk p) st0).recs := by
  unfold runBody
  dsimp only
  split
  · rfl
  · split
    · rfl
    · simp

theorem runBody_tailTmp_eq (p : Params) (cs : Nat) (input : List Nat) :
    (runBody p cs input).tailTmp = ((chunksOf cs input).foldl (processChunk p) st0).tailTmp := by
  unfold runBody
  dsimp only
  split
  · rfl
  · split
    · rfl
    · simp

theorem runBody_err_none {p : Params} {cs : Nat} {input : List Nat}
    (h : (runBody p cs input).err = none) :
    ((chunksOf cs input).foldl (processChunk p) st0).err = none := by
  unfold runBody at h
  dsimp only at h
  split at h
  · exact h
  · split at h
    · exact h
    · have h2 := budgetStep_err_none h
      rw [fsAdd_err] at h2
      exact h2

/-- When the run succeeds and a tail file exists, it has been sealed
(`tail.tmp` renamed to `tail.fin`). -/
theorem runBody_sealed_of_some {p : Params} {cs : Nat} {input : List Nat}
    (h : (runBody p cs input).err = none)
    (hs : (runBody p cs input).tailTmp.isSome) : (runBody p cs input).sealed = true := by
  have hf : ((chunksOf cs input).foldl (processChunk p) st0).err = none :=
    runBody_err_none h
  have hTmp := hs
  rw [runBody_tailTmp_eq] at hTmp
  obtain ⟨tl, htl⟩ := Option.isSome_iff_exists.mp hTmp
  unfold runBody
  dsimp only
  rw [if_neg (by rw [hf]; simp), htl]
  simp

theorem foldl_spec (p : Params) (cks : List (List Nat))
    (hm : ∀ l, (p.metricD l).length = l.length)
    (hsc : ∀ l, List.Perm (p.shuffleC l) l) :
    ∀ st : BState, (cks.foldl (processChunk p) st).err = none →
    List.Perm ((cks.foldl (processChunk p) st).recs.flatten.map Rec.val)
      (st.recs.flatten.map Rec.val ++ cks.flatten.filter (fun b => ! isTailB b)) ∧
    List.Perm ((cks.foldl (processChunk p) st).tailTmp.getD [])
      (st.tailTmp.getD [] ++ cks.flatten.filter (fun b => isTailB b)) := by
  induction cks with
  | nil => intro st _; simp
  | cons c cks ih =>
    intro st h
    rw [List.foldl_cons] at h ⊢
    have hstep := processChunk_spec p st c hm hsc (foldl_err_none h)
    have htl := ih (processChunk p st c) h
    constructor
    · refine htl.1.trans ?_
      refine (hstep.1.append_right _).trans ?_
      rw [List.flatten_cons, List.filter_append, List.append_assoc]
    · refine htl.2.trans ?_
      refine (hstep.2.append_right _).trans ?_
      rw [List.flatten_cons, List.filter_append, List.append_assoc]

theorem mem_zip_map_self {f : Nat → Nat} :
    ∀ {l : List Nat} {v k : Nat}, (v, k) ∈ l.zip (l.map f) → v ∈ l ∧ k = f v := by
  intro l
  induction l with
  | nil => intro v k h; simp at h
  | cons x xs ih =>
    intro v k h
    rw [List.map_cons, List.zip_cons_cons] at h
    rcases List.mem_cons.mp h with h | h
    · obtain ⟨rfl, rfl⟩ := Prod.mk.injEq .. |>.mp h
      exact ⟨by simp, rfl⟩
    · obtain ⟨hv, hk⟩ := ih h
      exact ⟨by simp [hv], hk⟩

theorem mkRecs_mem {p : Params} {g : Nat} {vks : List (Nat × Nat)} {r : Rec}
    (h : r ∈ mkRecs p g vks) : ∃ vk ∈ vks, r.val = vk.1 ∧ r.key = vk.2 := by
  unfold mkRecs at h
  obtain ⟨ik, hik, rfl⟩ := List.mem_map.mp h
  have : ik.2 ∈ vks.enum.map Prod.snd := List.mem_map_of_mem Prod.snd hik
  rw [List.enum_map_snd] at this
  exact ⟨ik.2, this, rfl, rfl⟩

theorem chunksOf_mem_subset {cs : Nat} {l c : List Nat} (hc : c ∈ chunksOf cs l) :
    ∀ x ∈ c, x ∈ l := by
  intro x hx
  by_cases h0 : cs = 0
  · subst h0
    rw [chunksOf_eq] at hc
    simp at hc
  · rw [← chunksOf_flatten (show 1 ≤ cs by omega) l]
    exact List.mem_flatten.mpr ⟨c, hc, hx⟩

/-- In a STRICT run (`metricD = id`) every accumulated record holds a
finite value below `2^64` whose key column is its `ieee_key`. -/
theorem foldl_recOK (p : Params) (hid : ∀ l, p.metricD l = l) (cks : List (List Nat))
    (hin : ∀ c ∈ cks, ∀ x ∈ c, x < 2 ^ 64) :
    ∀ st : BState, (∀ r ∈ st.recs.flatten, recOK r) →
    ∀ r ∈ (cks.foldl (processChunk p) st).recs.flatten, recOK r := by
  induction cks with
  | nil => intro st h; simpa using h
  | cons c cks ih =>
    intro st h
    rw [List.foldl_cons]
    apply ih (fun c2 hc2 => hin c2 (by simp [hc2]))
    rcases processChunk_recs_cases p st c with hc | ⟨g, hc⟩
    · rw [hc]; exact h
    · rw [hc]
      intro r hr
      rw [List.flatten_append] at hr
      rcases List.mem_append.mp hr with hr | hr
      · exact h r hr
      · simp only [List.flatten_cons, List.flatten_nil, List.append_nil] at hr
        rw [List.mem_insertionSort] at hr
        obtain ⟨vk, hvk, hval, hkey⟩ := mkRecs_mem hr
        rw [hid] at hvk
        obtain ⟨hv, hk⟩ := mem_zip_map_self hvk
        have hmask : (! isTailB vk.1) = true := (List.mem_filter.mp hv).2
        have hnt : ¬ isTailb vk.1 := by
          simp only [Bool.not_eq_true'] at hmask
          simpa [isTailB] using hmask
        have hfin : isFinb vk.1 := by
          by_contra hnf
          exact hnt ((isTailb_iff vk.1).mpr hnf)
        refine ⟨hval ▸ hfin, ?_, ?_⟩
        · rw [hval]
          exact hin c (by simp) vk.1 (List.mem_of_mem_filter hv)
        · rw [hval, hkey, hk]

theorem budgetInv_congr {maxB : Nat} {s1 s2 : BState} (hd : s2.disk = s1.disk)
    (hf : s2.fsB = s1.fsB) (ht : s2.trace = s1.trace) (he : s2.err = s1.err)
    (h : budgetInv maxB s1) : budgetInv maxB s2 := by
  intro hne
  rw [he] at hne
  obtain ⟨h1, h2, h3⟩ := h hne
  refine ⟨by rw [hd, hf]; exact h1, by rw [hd]; exact h2, ?_⟩
  rw [ht]
  exact h3

theorem budget_fsAdd_inv {maxB : Nat} {st st' : BState} {n : Nat}
    (hdisk : st'.disk = st.disk) (hfsB : st'.fsB = st.fsB)
    (htrace : st'.trace = st.trace) (herr : st'.err = st.err)
    (h : budgetInv maxB st) :
    budgetInv maxB (budgetStep maxB (fsAdd st' n) n) := by
  intro hne
  rw [budgetStep_err, fsAdd_err, fsAdd_disk, hdisk, herr] at hne
  simp only [budgetStep_disk, budgetStep_fsB, budgetStep_trace, fsAdd_disk, fsAdd_fsB,
    fsAdd_trace, hdisk, hfsB, htrace]
  by_cases hover : maxB < st.disk + n
  · rw [if_pos hover] at hne
    exact absurd rfl hne
  · rw [if_neg hover] at hne
    obtain ⟨h1, h2, h3⟩ := h hne
    refine ⟨by omega, by omega, ?_⟩
    intro t ht
    rcases List.mem_append.mp ht with ht | ht
    · exact h3 t ht
    · rcases List.mem_singleton.mp ht with rfl
      omega

theorem tailStep_budgetInv (p : Params) (st : BState) (tl : List Nat)
    (h : budgetInv p.maxBytes st) : budgetInv p.maxBytes (tailStep p st tl) := by
  unfold tailStep
  split
  · exact h
  · dsimp only
    exact budget_fsAdd_inv rfl rfl rfl rfl h

theorem finStep_budgetInv (p : Params) (st : BState) (fin : List Nat)
    (h : budgetInv p.maxBytes st) : budgetInv p.maxBytes (finStep p st fin) := by
  unfold finStep
  split
  · exact h
  · split
    · exact h
    · split
      · rename_i herrS _ _
        intro _
        have hst : st.err = none := by
          rcases hcase : st.err with _ | e
          · rfl
          · rw [hcase] at herrS
            simp at herrS
        exact h (by rw [hst]; simp)
      · dsimp only
        have hmain : budgetInv p.maxBytes
            (budgetStep p.maxBytes (fsAdd { st with gseq := st.gseq + fin.length }
              (32 * (List.insertionSort recLe (mkRecs p st.gseq
                (fin.zip ((p.metricD fin).map ieee_key)))).length + 16))
              (32 * (List.insertionSort recLe (mkRecs p st.gseq
                (fin.zip ((p.metricD fin).map ieee_key)))).length + 16)) :=
          budget_fsAdd_inv rfl rfl rfl rfl h
        split
        · exact budgetInv_congr rfl rfl rfl rfl hmain
        · exact budgetInv_congr rfl rfl rfl rfl hmain

theorem processChunk_budgetInv (p : Params) (st : BState) (c : List Nat)
    (h : budgetInv p.maxBytes st) : budgetInv p.maxBytes (processChunk p st c) := by
  unfold processChunk
  split
  · exact h
  · exact finStep_budgetInv p _ _ (tailStep_budgetInv p st _ h)

theorem foldl_budgetInv (p : Params) (cks : List (List Nat)) :
    ∀ st : BState, budgetInv p.maxBytes st →
    budgetInv p.maxBytes (cks.foldl (processChunk p) st) := by
  induction cks with
  | nil => intro st h; exact h
  | cons c cks ih =>
    intro st h
    rw [List.foldl_cons]
    exact ih _ (processChunk_budgetInv p st c h)

theorem runBody_budgetInv (p : Params) (cs : Nat) (input : List Nat) :
    budgetInv p.maxBytes (runBody p cs input) := by
  have hfold := foldl_budgetInv p (chunksOf cs input) st0 (by intro _; simp)
  unfold runBody
  dsimp only
  split
  · exact hfold
  · split
    · exact hfold
    · exact budget_fsAdd_inv rfl rfl rfl rfl hfold

theorem removeFiles_aux_le (B : Nat) :
    ∀ (sizes : List Nat) (f : Nat) (acc : List Nat), f ≤ B → (∀ t ∈ acc, t ≤ B) →
    ∀ t ∈ (sizes.foldl (fun acc s => (acc.1 - s, acc.2 ++ [acc.1 - s])) (f, acc)).2,
      t ≤ B := by
  intro sizes
  induction sizes with
  | nil => intro f acc hf hacc t ht; exact hacc t ht
  | cons s ss ih =>
    intro f acc hf hacc t ht
    rw [List.foldl_cons] at ht
    refine ih (f - s) _ (by omega) ?_ t ht
    intro u hu
    rcases List.mem_append.mp hu with hu | hu
    · exact hacc u hu
    · rcases List.mem_singleton.mp hu with rfl
      omega

theorem removeFiles_aux_fst :
    ∀ (sizes : List Nat) (f : Nat) (acc : List Nat),
    (sizes.foldl (fun acc s => (acc.1 - s, acc.2 ++ [acc.1 - s])) (f, acc)).1 =
      f - sizes.sum := by
  intro sizes
  induction sizes with
  | nil => intro f acc; simp
  | cons s ss ih =>
    intro f acc
    rw [List.foldl_cons, List.sum_cons]
    dsimp only
    rw [ih]
    omega

theorem tailStep_chunkInv (p : Params) (st : BState) (tl : List Nat)
    (h : chunkInv st) : chunkInv (tailStep p st tl) := by
  obtain ⟨hs, hl, hf⟩ := h
  unfold tailStep
  split
  · exact ⟨hs, hl, hf⟩
  · dsimp only
    refine ⟨?_, ?_, ?_⟩
    · simp [hs]
    · intro he
      have h2 := budgetStep_err_none he
      have h3 : st.err = none := h2
      simp only [budgetStep_leaked, fsAdd_leaked]
      exact hl h3
    · simp only [budgetStep_fsB, fsAdd_fsB, budgetStep_chunkFiles, fsAdd_chunkFiles,
        budgetStep_leaked, fsAdd_leaked, budgetStep_tailTmp, fsAdd_tailTmp,
        Option.getD_some, List.length_append]
      omega

theorem finStep_chunkInv (p : Params) (st : BState) (fin : List Nat)
    (h : chunkInv st) : chunkInv (finStep p st fin) := by
  obtain ⟨hs, hl, hf⟩ := h
  unfold finStep
  split
  · exact ⟨hs, hl, hf⟩
  · split
    · exact ⟨hs, hl, hf⟩
    · split
      · exact ⟨hs, by simp, hf⟩
      · rename_i herrS _ _
        have hst : st.err = none := by
          rcases hcase : st.err with _ | e
          · rfl
          · rw [hcase] at herrS
            simp at herrS
        have hlk : st.leaked = none := hl hst
        dsimp only
        split
        · rename_i hbud
          refine ⟨?_, ?_, ?_⟩
          · simp [hs]
          · intro he
            rw [Option.isSome_iff_ne_none] at hbud
            exact absurd he hbud
          · simp only [budgetStep_fsB, fsAdd_fsB, budgetStep_chunkFiles, fsAdd_chunkFiles,
              budgetStep_tailTmp, fsAdd_tailTmp, Option.getD_some]
            rw [hlk] at hf
            simp only [Option.getD_none] at hf
            omega
        · refine ⟨?_, ?_, ?_⟩
          · simp [hs]
          · intro _
            simp only [budgetStep_leaked, fsAdd_leaked]
            exact hlk
          · simp only [budgetStep_fsB, fsAdd_fsB, budgetStep_chunkFiles, fsAdd_chunkFiles,
              budgetStep_tailTmp, fsAdd_tailTmp, budgetStep_leaked, fsAdd_leaked,
              List.sum_append, hlk, Option.getD_none, List.sum_cons, List.sum_nil]
            rw [hlk] at hf
            simp only [Option.getD_none] at hf
            omega

theorem processChunk_chunkInv (p : Params) (st : BState) (c : List Nat)
    (h : chunkInv st) : chunkInv (processChunk p st c) := by
  unfold processChunk
  split
  · exact h
  · exact finStep_chunkInv p _ _ (tailStep_chunkInv p st _ h)

theorem foldl_chunkInv (p : Params) (cks : List (List Nat)) :
    ∀ st : BState, chunkInv st → chunkInv (cks.foldl (processChunk p) st) := by
  induction cks with
  | nil => intro st h; exact h
  | cons c cks ih =>
    intro st h
    rw [List.foldl_cons]
    exact ih _ (processChunk_chunkInv p st c h)

theorem tailBytes_of_unsealed {st : BState} (hs : st.sealed = false) :
    tailBytes st = 8 * (st.tailTmp.getD []).length := by
  unfold tailBytes
  rcases hc : st.tailTmp with _ | tl
  · simp
  · simp [hs]

/-- Accounting at the end of the body: every on-disk byte is attributed
to a tracked chunk file, the tail file, or the leaked chunk file. -/
theorem runBody_account (p : Params) (cs : Nat) (input : List Nat) :
    (runBody p cs input).fsB = (runBody p cs input).chunkFiles.sum +
      tailBytes (runBody p cs input) + (runBody p cs input).leaked.getD 0 := by
  have hF := foldl_chunkInv p (chunksOf cs input) st0 ⟨rfl, fun _ => rfl, by simp⟩
  obtain ⟨hs, _, hf⟩ := hF
  unfold runBody
  dsimp only
  split
  · rw [tailBytes_of_unsealed hs]
    exact hf
  · split
    · rw [tailBytes_of_unsealed hs]
      exact hf
    · rename_i tl htl
      have e1 : tailBytes (budgetStep p.maxBytes
          (fsAdd { (chunksOf cs input).foldl (processChunk p) st0 with sealed := true } 16)
          16) = 8 * tl.length + 16 := by
        unfold tailBytes
        simp [budgetStep_tailTmp, fsAdd_tailTmp, budgetStep_sealed, fsAdd_sealed, htl]
      rw [e1]
      simp only [budgetStep_fsB, fsAdd_fsB, budgetStep_chunkFiles, fsAdd_chunkFiles,
        budgetStep_leaked, fsAdd_leaked]
      rw [hf, htl]
      simp only [Option.getD_some]
      omega

theorem removeFiles_fst (f : Nat) (sizes : List Nat) :
    (removeFiles f sizes).1 = f - sizes.sum :=
  removeFiles_aux_fst sizes f []

theorem runFull_bytesAfter (p : Params) (cs : Nat) (input : List Nat) :
    (runFull p cs input).bytesAfter = (runBody p cs input).leaked.getD 0 := by
  have hacc := runBody_account p cs input
  unfold runFull
  dsimp only
  rw [removeFiles_fst, List.sum_append]
  have hsum : (if (runBody p cs input).tailTmp.isSome
      then [tailBytes (runBody p cs input)] else []).sum = tailBytes (runBody p cs input) := by
    rcases hc : (runBody p cs input).tailTmp with _ | tl
    · simp [tailBytes, hc]
    · simp
  rw [hsum]
  omega

/-- In a run that never raises `MemoryError`, every observed on-disk
total (including during cleanup) is within the scratch quota. -/
theorem runFull_trace_le (p : Params) (cs : Nat) (input : List Nat)
    (h : (runFull p cs input).err ≠ some .budget) :
    ∀ t ∈ (runFull p cs input).trace, t ≤ p.maxBytes := by
  have hbody : (runBody p cs input).err ≠ some .budget := h
  obtain ⟨hdf, hdm, htr⟩ := runBody_budgetInv p cs input hbody
  have hfsB : (runBody p cs input).fsB ≤ p.maxBytes := by omega
  unfold runFull
  dsimp only
  intro t ht
  rcases List.mem_append.mp ht with ht | ht
  · exact htr t ht
  · exact removeFiles_aux_le p.maxBytes _ _ _ hfsB (by simp) t ht

theorem runFull_err (p : Params) (cs : Nat) (input : List Nat) :
    (runFull p cs input).err = (runBody p cs input).err := rfl

theorem runFull_mergedRecs (p : Params) (cs : Nat) (input : List Nat) :
    (runFull p cs input).mergedRecs = mergeAll (runBody p cs input).recs := rfl

theorem runFull_output_of_err_none {p : Params} {cs : Nat} {input : List Nat}
    (h : (runBody p cs input).err = none) :
    (runFull p cs input).output = (mergeAll (runBody p cs input).recs).map Rec.val ++
      tailOut p (runBody p cs input) := by
  unfold runFull
  dsimp only
  rw [if_neg (by simp [h])]

theorem tailOut_mem (p : Params) (st : BState) :
    ∀ y ∈ tailOut p st, ∃ tl, st.tailTmp = some tl ∧ y ∈ emitTail p tl := by
  unfold tailOut
  split
  · simp
  · rename_i tl heq
    intro y hy
    split at hy
    · exact ⟨tl, heq, hy⟩
    · simp at hy

theorem key_zero_eq {b : Nat} (hz : isZerob b) :
    ieee_key b = if signbit b then K_NEG0 else K_POS0 := by
  unfold ieee_key
  rw [if_neg (by unfold isNaNb; unfold isZerob at hz; omega),
    if_neg (by unfold isNegInfb isInfb; unfold isZerob at hz; omega),
    if_neg (by unfold isPosInfb isInfb; unfold isZerob at hz; omega),
    if_pos hz]

theorem outPairOk_of_tail_right {x y : Nat} (hy : isTailb y) : outPairOk x y := by
  refine ⟨fun _ => hy, ?_, ?_, ?_⟩
  · intro _ _ hfy _
    exact absurd hfy ((isTailb_iff y).mp hy)
  · intro _ hfy
    exact absurd hfy ((isTailb_iff y).mp hy)
  · rintro ⟨rfl, rfl⟩
    exact absurd hy (by decide)

theorem outPairOk_of_key_le {x y : Nat} (hx4 : x < 2 ^ 64) (hy4 : y < 2 ^ 64)
    (hxf : isFinb x) (hyf : isFinb y) (hk : ieee_key x ≤ ieee_key y) :
    outPairOk x y := by
  refine ⟨?_, ?_, ?_, ?_⟩
  · intro ht
    exact absurd hxf ((isTailb_iff x).mp ht)
  · intro _ hnzx _ hnzy
    exact (key_le_iff_scaledVal_le hx4 hy4 hxf hyf hnzx hnzy).mp hk
  · intro hzx hfy
    by_contra hnzy
    have hlt := key_finNZ_lt_SENT hy4 hyf hnzy
    rw [key_zero_eq hzx] at hk
    unfold K_NEG0 K_POS0 SENT at hk
    split at hk <;> (unfold SENT at hlt; omega)
  · rintro ⟨rfl, rfl⟩
    have h0 : ieee_key 0 = K_POS0 := by decide
    have h1 : ieee_key (2 ^ 63) = K_NEG0 := by decide
    rw [h0, h1] at hk
    unfold K_POS0 K_NEG0 SENT at hk
    omega

theorem pairwise_of_all_tail {l : List Nat} (h : ∀ y ∈ l, isTailb y) :
    List.Pairwise outPairOk l := by
  induction l with
  | nil => exact List.Pairwise.nil
  | cons a l ih =>
    exact List.Pairwise.cons (fun b hb => outPairOk_of_tail_right (h b (by simp [hb])))
      (ih (fun y hy => h y (by simp [hy])))

theorem runFull_output_of_err_some {p : Params} {cs : Nat} {input : List Nat} {e : RErr}
    (h : (runBody p cs input).err = some e) : (runFull p cs input).output = [] := by
  unfold runFull
  dsimp only
  rw [if_pos (by simp [h])]

/-- Core ordering fact for STRICT runs: every ordered pair of the output
satisfies `outPairOk`. -/
theorem runFull_output_pairwise (p : Params) (cs : Nat) (input : List Nat)
    (hid : ∀ l, p.metricD l = l)
    (hin : ∀ x ∈ input, x < 2 ^ 64)
    (hsc : ∀ l, List.Perm (p.shuffleC l) l)
    (hse : ∀ l, List.Perm (p.shuffleE l) l) :
    List.Pairwise outPairOk (runFull p cs input).output := by
  rcases herr : (runBody p cs input).err with _ | e
  · rw [runFull_output_of_err_none herr, List.pairwise_append]
    have hm : ∀ l, (p.metricD l).length = l.length := fun l => by rw [hid]
    have hOK : ∀ r ∈ mergeAll (runBody p cs input).recs, recOK r := by
      intro r hr
      have h2 : r ∈ (runBody p cs input).recs.flatten := (mergeAll_perm _).mem_iff.mp hr
      rw [runBody_recs_eq] at h2
      exact foldl_recOK p hid (chunksOf cs input)
        (fun c hc x hx => hin x (chunksOf_mem_subset hc x hx)) st0 (by simp) r h2
    have hspec := foldl_spec p (chunksOf cs input) hm hsc st0 (runBody_err_none herr)
    have htl := hspec.2
    simp only [st0_tailTmp, Option.getD_none, List.nil_append] at htl
    have htailmem : ∀ y ∈ tailOut p (runBody p cs input), isTailb y := by
      intro y hy
      obtain ⟨tl, heq, hmem0⟩ := tailOut_mem p _ y hy
      have hsome : ((chunksOf cs input).foldl (processChunk p) st0).tailTmp = some tl := by
        rw [← runBody_tailTmp_eq]
        exact heq
      rw [hsome] at htl
      simp only [Option.getD_some] at htl
      have hmem : y ∈ tl := emitTail_mem p tl hse y hmem0
      have hq : isTailB y = true := (List.mem_filter.mp (htl.mem_iff.mp hmem)).2
      simpa [isTailB] using hq
    refine ⟨?_, pairwise_of_all_tail htailmem,
      fun a _ b hb => outPairOk_of_tail_right (htailmem b hb)⟩
    have hsorted : (mergeAll (runBody p cs input).recs).Sorted recLe :=
      mergeAll_sorted _ (runBody_recs_sorted p cs input)
    rw [List.pairwise_map]
    refine List.Pairwise.imp_of_mem ?_ hsorted
    intro a b ha hb hab
    obtain ⟨haf, ha4, hak⟩ := hOK a ha
    obtain ⟨hbf, hb4, hbk⟩ := hOK b hb
    have hkle : a.key ≤ b.key := by
      unfold recLe at hab
      rcases hab with h | ⟨h, _⟩
      · omega
      · omega
    rw [hak, hbk] at hkle
    exact outPairOk_of_key_le ha4 hb4 haf hbf hkle
  · rw [runFull_output_of_err_some herr]
    exact List.Pairwise.nil

/-- Core permutation fact: a successful run with at most `2^26` nonfinite
inputs emits a permutation of its input. -/
theorem runFull_output_perm (p : Params) (cs : Nat) (input : List Nat)
    (hcs : 1 ≤ cs)
    (hm : ∀ l, (p.metricD l).length = l.length)
    (hsc : ∀ l, List.Perm (p.shuffleC l) l)
    (hse : ∀ l, List.Perm (p.shuffleE l) l)
    (herr : (runFull p cs input).err = none)
    (htail : (input.filter (fun b => isTailB b)).length ≤ 2 ^ 26) :
    List.Perm (runFull p cs input).output input := by
  have hb : (runBody p cs input).err = none := herr
  have hspec := foldl_spec p (chunksOf cs input) hm hsc st0 (runBody_err_none hb)
  rw [chunksOf_flatten hcs] at hspec
  obtain ⟨hrec, htl⟩ := hspec
  simp only [st0_recs, st0_tailTmp, List.flatten_nil, List.map_nil, List.nil_append,
    Option.getD_none] at hrec htl
  rw [runFull_output_of_err_none hb]
  have hA : List.Perm ((mergeAll (runBody p cs input).recs).map Rec.val)
      (input.filter (fun b => ! isTailB b)) := by
    refine ((mergeAll_perm _).map Rec.val).trans ?_
    rw [runBody_recs_eq]
    exact hrec
  have hB : List.Perm (tailOut p (runBody p cs input))
      (input.filter (fun b => isTailB b)) := by
    unfold tailOut
    split
    · rename_i heq
      have hnone : ((chunksOf cs input).foldl (processChunk p) st0).tailTmp = none := by
        rw [← runBody_tailTmp_eq]
        exact heq
      rw [hnone] at htl
      simp only [Option.getD_none] at htl
      have : input.filter (fun b => isTailB b) = [] := (htl.symm).eq_nil
      rw [this]
    · rename_i tl heq
      have hsealed : (runBody p cs input).sealed = true :=
        runBody_sealed_of_some hb (by rw [heq]; rfl)
      rw [hsealed, if_pos rfl]
      have hsome : ((chunksOf cs input).foldl (processChunk p) st0).tailTmp = some tl := by
        rw [← runBody_tailTmp_eq]
        exact heq
      rw [hsome] at htl
      simp only [Option.getD_some] at htl
      have hlen : 8 * tl.length ≤ 536870912 := by
        have := htl.length_eq
        have h26 : tl.length ≤ 2 ^ 26 := by omega
        omega
      exact (emitTail_perm p tl hse hlen).trans htl
  refine ((hA.append hB)).trans ?_
  have hfin := List.filter_append_perm (fun b => ! isTailB b) input
  simp only [Bool.not_not] at hfin
  exact hfin

theorem filter_replicate_of_pos {q : Nat → Bool} {x : Nat} (hq : q x = true) :
    ∀ n, (List.replicate n x).filter q = List.replicate n x := by
  intro n
  induction n with
  | zero => rfl
  | succ n ih => simp [List.replicate_succ, List.filter_cons, hq, ih]

theorem filter_replicate_of_neg {q : Nat → Bool} {x : Nat} (hq : q x = false) :
    ∀ n, (List.replicate n x).filter q = [] := by
  intro n
  induction n with
  | zero => rfl
  | succ n ih => simp [List.replicate_succ, List.filter_cons, hq, ih]

theorem finStep_nil (p : Params) (st : BState) : finStep p st [] = st := by
  unfold finStep
  split
  · rfl
  · simp

theorem chunksOf_single {cs : Nat} (hcs : cs ≠ 0) {l : List Nat} (hne : l ≠ [])
    (hlen : l.length ≤ cs) : chunksOf cs l = [l] := by
  rw [chunksOf_eq]
  rw [if_neg (by tauto)]
  rw [List.take_of_length_le hlen, List.drop_eq_nil_of_le hlen, chunksOf_nil]

theorem replicate_nanB_ne_nil {n : Nat} (hn : n ≠ 0) :
    List.replicate n nanB ≠ [] := by
  cases n with
  | zero => exact absurd rfl hn
  | succ m => rw [List.replicate_succ]; exact List.cons_ne_nil _ _

theorem replicate_nanB_isEmpty {n : Nat} (hn : n ≠ 0) :
    (List.replicate n nanB).isEmpty = false := by
  cases n with
  | zero => exact absurd rfl hn
  | succ m => rw [List.replicate_succ]; rfl

theorem processChunk_replicate_tail (n : Nat) (hn : n ≠ 0)
    (hb : 8 * n ≤ 2 ^ 62) :
    processChunk cexParams st0 (List.replicate n nanB) =
      { gseq := 0, idx := 0, disk := 8 * n, fsB := 8 * n,
        trace := [8 * n], chunkFiles := [], leaked := none,
        tailTmp := some (List.replicate n nanB), sealed := false,
        recs := [], err := none } := by
  unfold processChunk
  rw [if_neg (by simp)]
  rw [filter_replicate_of_pos (by decide) _, filter_replicate_of_neg (by decide) _]
  rw [finStep_nil]
  unfold tailStep
  rw [replicate_nanB_isEmpty hn]
  rw [if_neg (by simp)]
  dsimp only
  rw [if_neg (by simp [cexParams])]
  unfold budgetStep fsAdd
  dsimp only
  rw [List.length_replicate]
  rw [if_neg (by simp [cexParams, st0]; omega)]
  simp [st0]

theorem c4_body :
    runBody cexParams (2 ^ 26 + 1) (List.replicate (2 ^ 26 + 1) nanB) =
      { gseq := 0, idx := 0, disk := 8 * (2 ^ 26 + 1) + 16, fsB := 8 * (2 ^ 26 + 1) + 16,
        trace := [8 * (2 ^ 26 + 1), 8 * (2 ^ 26 + 1) + 16], chunkFiles := [],
        leaked := none, tailTmp := some (List.replicate (2 ^ 26 + 1) nanB),
        sealed := true, recs := [], err := none } := by
  have hchunk := processChunk_replicate_tail (2 ^ 26 + 1) (by norm_num) (by norm_num)
  unfold runBody
  rw [chunksOf_single (by norm_num) (replicate_nanB_ne_nil (by norm_num))
      (le_of_eq (List.length_replicate _ _))]
  rw [List.foldl_cons, List.foldl_nil, hchunk]
  dsimp only
  unfold budgetStep fsAdd
  dsimp only
  rw [if_neg (by norm_num [cexParams])]
  rfl

theorem c4_output_len :
    (runFull cexParams (2 ^ 26 + 1) (List.replicate (2 ^ 26 + 1) nanB)).output.length =
      2 ^ 23 := by
  rw [runFull_output_of_err_none (by rw [c4_body])]
  rw [c4_body]
  dsimp only
  unfold tailOut
  dsimp only
  rw [if_pos rfl]
  unfold emitTail
  rw [replicate_nanB_isEmpty (by norm_num)]
  rw [if_neg (by simp)]
  rw [List.length_replicate]
  rw [if_neg (by norm_num)]
  rw [List.length_append]
  rw [show (mergeAll [] : List Rec) = [] from rfl]
  rw [List.map_nil, List.length_nil]
  rw [show cexParams.shuffleE = id from rfl, id_eq]
  rw [reservoir_length]
  rw [List.length_replicate]
  norm_num [RESCAP]

/-! ### Claim C1 -/

set_option exponentiation.threshold 2200 in
set_option maxRecDepth 8000 in
/-- C1, counterexample to the claim as stated.  STRICT mode, VALUE
tie-break, input `[0.0, 1.0]` (bit patterns `[0, 0x3FF0000000000000]`):
the output is `[1.0, 0.0]`, so the finite elements are NOT in
non-decreasing numeric order — `ieee_key` maps both zeros to sentinel
keys `K_NEG0 / K_POS0` that lie above every other finite key, so every
`±0.0` is emitted after all nonzero finite values. -/
theorem c1_counterexample :
    (runFull cexParams 4 [0, 4607182418800017408]).output = [4607182418800017408, 0] ∧
    isFinb 0 ∧ isFinb 4607182418800017408 ∧
    scaledVal 0 < scaledVal 4607182418800017408 := by
  refine ⟨by decide, by decide, by decide, by decide⟩

/-- C1, amended.  In STRICT mode (`_metric` is the identity), for every
input of 64-bit patterns, every chunk size and every tie-break, all
ordered pairs of the output satisfy `outPairOk`: non-finite elements
follow only non-finite elements (so the tail comes after all finite
values); finite nonzero values appear in non-decreasing numeric order;
zeros are followed only by zeros among the finite values (zeros sort
after all nonzero finite values because their keys are sentinels); and
`+0.0` never precedes `-0.0`.  The shuffles are assumed to permute, as
Fisher-Yates does. -/
theorem c1_strict_output_order (p : Params) (cs : Nat) (input : List Nat)
    (hid : ∀ l, p.metricD l = l)
    (hin : ∀ x ∈ input, x < 2 ^ 64)
    (hsc : ∀ l, List.Perm (p.shuffleC l) l)
    (hse : ∀ l, List.Perm (p.shuffleE l) l) :
    List.Pairwise outPairOk (runFull p cs input).output :=
  runFull_output_pairwise p cs input hid hin hsc hse

/-- C1, witness: the amended theorem applied to the concrete STRICT run
on `[1.5, NaN, -2.0]`. -/
theorem c1_witness :
    ((∀ l, cexParams.metricD l = l) ∧
      (∀ x ∈ [(4609434218613702656 : Nat), 9221120237041090560, 13835058055282163712],
        x < 2 ^ 64)) ∧
    List.Pairwise outPairOk (runFull cexParams 4
      [4609434218613702656, 9221120237041090560, 13835058055282163712]).output :=
  ⟨⟨fun _ => rfl, by decide⟩,
    c1_strict_output_order cexParams 4 _ (fun _ => rfl) (by decide)
      (fun l => List.Perm.refl l) (fun l => List.Perm.refl l)⟩

/-! ### Claim C2 -/

/-- C2.  In every run (any mode, tie-break, chunk size, quota), the
merged record stream is sorted by the lexicographic comparator on
`(key, tie, seq)`: for any records A emitted before B,
`(A.key, A.tie, A.seq) ≤ (B.key, B.tie, B.seq)`. -/
theorem c2_merged_sorted (p : Params) (cs : Nat) (input : List Nat) :
    ((runFull p cs input).mergedRecs).Sorted recLe := by
  rw [runFull_mergedRecs]
  exact mergeAll_sorted _ (runBody_recs_sorted p cs input)

/-! ### Claim C3 -/

set_option exponentiation.threshold 2200 in
set_option maxRecDepth 8000 in
/-- C3, counterexample to the claim as stated.  `a = 0.0` (pattern `0`),
`b = 1.0`: numerically `a < b`, but `encode(a) = K_POS0` is a sentinel
above every nonzero finite key, so `encode(a) < encode(b)` fails. -/
theorem c3_counterexample :
    scaledVal 0 < scaledVal 4607182418800017408 ∧
    ¬ ieee_key 0 < ieee_key 4607182418800017408 := by
  refine ⟨by decide, by decide⟩

/-- C3, amended.  For all finite NONZERO doubles `a`, `b`:
`a < b ⇔ encode(a) < encode(b)` (`scaledVal` is the IEEE numeric value
scaled by `2^1074`).  Zeros are excluded: `ieee_key` maps them to the
sentinels `K_NEG0 / K_POS0` above all finite keys. -/
theorem c3_key_order_iff (a b : Nat) (ha : a < 2 ^ 64) (hb : b < 2 ^ 64)
    (haf : isFinb a) (hbf : isFinb b) (hanz : ¬ isZerob a) (hbnz : ¬ isZerob b) :
    scaledVal a < scaledVal b ↔ ieee_key a < ieee_key b :=
  (key_lt_iff_scaledVal_lt ha hb haf hbf hanz hbnz).symm

/-- C3, witness: the amended theorem at `a = 1.0`, `b = 2.0`. -/
theorem c3_witness :
    ((4607182418800017408 : Nat) < 2 ^ 64 ∧ (4611686018427387904 : Nat) < 2 ^ 64 ∧
      isFinb 4607182418800017408 ∧ isFinb 4611686018427387904 ∧
      ¬ isZerob 4607182418800017408 ∧ ¬ isZerob 4611686018427387904) ∧
    (scaledVal 4607182418800017408 < scaledVal 4611686018427387904 ↔
      ieee_key 4607182418800017408 < ieee_key 4611686018427387904) :=
  ⟨⟨by decide, by decide, by decide, by decide, by decide, by decide⟩,
    c3_key_order_iff 4607182418800017408 4611686018427387904
      (by decide) (by decide) (by decide) (by decide) (by decide) (by decide)⟩

/-! ### Claim C4 -/

/-- C4, counterexample to the claim as stated.  An input of `2^26 + 1`
NaNs (one chunk, chunk capacity `2^26 + 1`) makes the tail payload
exceed 512 MiB, so `_tail_emit` switches to the Vitter-R reservoir and
emits only `2^23` values: the output is NOT a permutation of the input
and its length differs from `|X|`. -/
theorem c4_counterexample :
    (runFull cexParams (2 ^ 26 + 1) (List.replicate (2 ^ 26 + 1) nanB)).output.length =
      2 ^ 23 ∧
    (List.replicate (2 ^ 26 + 1) nanB).length = 2 ^ 26 + 1 ∧
    ¬ List.Perm (runFull cexParams (2 ^ 26 + 1)
        (List.replicate (2 ^ 26 + 1) nanB)).output
      (List.replicate (2 ^ 26 + 1) nanB) := by
  refine ⟨c4_output_len, List.length_replicate _ _, ?_⟩
  intro hperm
  have hlen := hperm.length_eq
  rw [c4_output_len, List.length_replicate] at hlen
  norm_num at hlen

/-- C4, amended.  For every finite input, mode and tie-break: provided
the chunk capacity is positive, the run raises no error (quota /
sequence-counter), and at most `2^26` non-finite inputs arrive (tail
payload at most 512 MiB, below the reservoir threshold), the output is a
permutation of the input — each finite input contributes exactly one
record and each non-finite input exactly one tail element.  The metric
is assumed length-preserving and the shuffles permuting, as in the
code. -/
theorem c4_output_permutation (p : Params) (cs : Nat) (input : List Nat)
    (hcs : 1 ≤ cs)
    (hm : ∀ l, (p.metricD l).length = l.length)
    (hsc : ∀ l, List.Perm (p.shuffleC l) l)
    (hse : ∀ l, List.Perm (p.shuffleE l) l)
    (herr : (runFull p cs input).err = none)
    (htail : (input.filter (fun b => isTailB b)).length ≤ 2 ^ 26) :
    List.Perm (runFull p cs input).output input :=
  runFull_output_perm p cs input hcs hm hsc hse herr htail

/-- C4, witness: the amended theorem on the run `[1.5, NaN, -2.0]` with
chunk size 4. -/
theorem c4_witness :
    ((1 : Nat) ≤ 4 ∧
      (runFull cexParams 4
        [4609434218613702656, 9221120237041090560, 13835058055282163712]).err = none ∧
      (([4609434218613702656, 9221120237041090560,
        13835058055282163712] : List Nat).filter (fun b => isTailB b)).length ≤ 2 ^ 26) ∧
    List.Perm (runFull cexParams 4
        [4609434218613702656, 9221120237041090560, 13835058055282163712]).output
      [4609434218613702656, 9221120237041090560, 13835058055282163712] :=
  ⟨⟨by decide, by decide, by decide⟩,
    c4_output_permutation cexParams 4 _ (by decide) (fun _ => rfl)
      (fun l => List.Perm.refl l) (fun l => List.Perm.refl l) (by decide) (by decide)⟩

/-! ### Claim C5 -/

/-- C5.  `encode(-0.0) = K_NEG0`, `encode(+0.0) = K_POS0`,
`K_NEG0 < K_POS0`; both zero keys are sentinels above the key of every
finite nonzero value (the "finite keys"); and every finite nonzero key
lies in `[0, SENT)`, distinct from all five sentinels. -/
theorem c5_sentinel_keys (x : Nat) (hx : x < 2 ^ 64) (hf : isFinb x)
    (hnz : ¬ isZerob x) :
    ieee_key (2 ^ 63) = K_NEG0 ∧ ieee_key 0 = K_POS0 ∧ K_NEG0 < K_POS0 ∧
    ieee_key x < K_NEG0 ∧ ieee_key x < K_POS0 ∧ ieee_key x < SENT ∧
    ieee_key x ≠ K_NEGINF ∧ ieee_key x ≠ K_POSINF ∧ ieee_key x ≠ K_NEG0 ∧
    ieee_key x ≠ K_POS0 ∧ ieee_key x ≠ K_NAN := by
  have h := key_finNZ_lt_SENT hx hf hnz
  unfold K_NEGINF K_POSINF K_NEG0 K_POS0 K_NAN SENT at *
  refine ⟨by decide, by decide, by decide, ?_, ?_, ?_, ?_, ?_, ?_, ?_, ?_⟩ <;> omega

/-- C5, witness: the theorem at `x = 1.0`. -/
theorem c5_witness :
    ((4607182418800017408 : Nat) < 2 ^ 64 ∧ isFinb 4607182418800017408 ∧
      ¬ isZerob 4607182418800017408) ∧
    (ieee_key (2 ^ 63) = K_NEG0 ∧ ieee_key 0 = K_POS0 ∧ K_NEG0 < K_POS0 ∧
      ieee_key 4607182418800017408 < K_NEG0 ∧ ieee_key 4607182418800017408 < K_POS0 ∧
      ieee_key 4607182418800017408 < SENT ∧
      ieee_key 4607182418800017408 ≠ K_NEGINF ∧
      ieee_key 4607182418800017408 ≠ K_POSINF ∧
      ieee_key 4607182418800017408 ≠ K_NEG0 ∧
      ieee_key 4607182418800017408 ≠ K_POS0 ∧
      ieee_key 4607182418800017408 ≠ K_NAN) :=
  ⟨⟨by decide, by decide, by decide⟩,
    c5_sentinel_keys 4607182418800017408 (by decide) (by decide) (by decide)⟩

theorem metric_CURVED_eq (cosPi : ℚ → ℚ) (eps : ℚ) (x : ℚ) (xs : List ℚ) :
    metric cosPi eps Mode.CURVED (x :: xs) =
      (if xs.foldl max x - xs.foldl min x ≤ tinyQ
       then (x :: xs).map (fun _ => eps * cosPi 0)
       else (x :: xs).map (fun v =>
         (v - xs.foldl min x) / (xs.foldl max x - xs.foldl min x) +
           eps * cosPi ((v - xs.foldl min x) / (xs.foldl max x - xs.foldl min x)))) := by
  unfold metric
  dsimp only
  split
  · rw [List.map_map]
    apply List.map_congr_left
    intro v _
    simp
  · rw [List.map_map]
    apply List.map_congr_left
    intro v _
    simp

/-! ### Claim C6 -/

set_option exponentiation.threshold 2200 in
set_option maxRecDepth 8000 in
/-- C6, counterexample to the claim as stated.  CURVED mode,
`eps = 1/100`, input `[5]`: the span is `0 ≤ tiny`, yet the metric does
not return the all-zero array — the code zeroes only `norm` and still
returns `norm + eps * cos(pi * norm)`, i.e. the constant `eps * cos(0)
= eps`.  (`cosPi := fun _ => 1` agrees with the float `cos` at the only
evaluated point, `cos(pi * 0) = 1` exactly.) -/
theorem c6_counterexample :
    (5 : ℚ) - 5 ≤ tinyQ ∧
    metric (fun _ => (1 : ℚ)) (1 / 100) Mode.CURVED [5] ≠ [0] := by
  have h5 : (5 : ℚ) - 5 = 0 := by norm_num
  have hspan : (5 : ℚ) - 5 ≤ tinyQ := by
    rw [h5]
    unfold tinyQ
    positivity
  refine ⟨hspan, ?_⟩
  rw [metric_CURVED_eq]
  simp only [List.foldl_nil]
  rw [if_pos hspan]
  simp only [List.map_cons, List.map_nil]
  intro h
  rw [List.cons.injEq] at h
  norm_num at h

/-- C6, amended.  In CURVED mode on a nonempty input: if
`span = max - min ≤ tiny` the metric returns the constant array with
every entry `eps * cos(pi * 0)` (that is, `eps`, not zero); otherwise it
returns `n + eps * cos(pi * n)` with `n = (v - lo) / span`.  `cosPi n`
stands for the float computation `np.cos(np.pi * n)`. -/
theorem c6_metric_eq (cosPi : ℚ → ℚ) (eps : ℚ) (x : ℚ) (xs : List ℚ) :
    metric cosPi eps Mode.CURVED (x :: xs) =
      (if xs.foldl max x - xs.foldl min x ≤ tinyQ
       then (x :: xs).map (fun _ => eps * cosPi 0)
       else (x :: xs).map (fun v =>
         (v - xs.foldl min x) / (xs.foldl max x - xs.foldl min x) +
           eps * cosPi ((v - xs.foldl min x) / (xs.foldl max x - xs.foldl min x)))) :=
  metric_CURVED_eq cosPi eps x xs

/-! ### Claim C7 -/

/-- C7.  The constructor raises a configuration error if and only if
`pi * epsilon >= 1` (float arithmetic modelled exactly with `piQ`, the
rational value of the 64-bit `math.pi`) or `require_deterministic` is
set without an explicit seed; and on success a configuration (with the
working directory, created only after the checks) is returned, so the
error precedes any streaming or scratch activity. -/
theorem c7_init_validation (eps : ℚ) (det : Bool) (seed : Option Int) :
    ((∃ msg, xiInit eps det seed = .error msg) ↔
      (1 ≤ eps * piQ ∨ (det = true ∧ seed = none))) ∧
    (∀ cfg, xiInit eps det seed = .ok cfg → cfg.wdCreated = true) := by
  unfold xiInit
  constructor
  · constructor
    · rintro ⟨msg, hmsg⟩
      split at hmsg
      · left
        assumption
      · split at hmsg
        · rename_i h2
          right
          rw [Bool.and_eq_true] at h2
          exact ⟨h2.1, Option.isNone_iff_eq_none.mp h2.2⟩
        · exact Except.noConfusion hmsg
    · intro h
      by_cases h1 : 1 ≤ eps * piQ
      · rw [if_pos h1]
        exact ⟨_, rfl⟩
      · rcases h with h | ⟨hd, hs⟩
        · exact absurd h h1
        · rw [if_neg h1, if_pos (by rw [hd, hs]; rfl)]
          exact ⟨_, rfl⟩
  · intro cfg hcfg
    split at hcfg
    · exact Except.noConfusion hcfg
    · split at hcfg
      · exact Except.noConfusion hcfg
      · cases hcfg
        rfl

/-! ### Claim C8 -/

/-- C8, counterexample to the claim as stated.  With `max_bytes = 0` and
input `[1.0]`, the 48-byte chunk file is written BEFORE its budget check
runs, so at that instant the scratch bytes on disk (48) exceed the
quota; the check then raises `MemoryError`. -/
theorem c8_counterexample :
    ¬ (∀ t ∈ (runFull cexParams0 1 [4607182418800017408]).trace,
        t ≤ cexParams0.maxBytes) := by
  decide

/-- C8, amended.  In any run that does not raise `MemoryError`, every
observed on-disk total — after each tail append, chunk write, tag
append, and cleanup removal — is within `max_bytes`; contrapositively, a
write that pushes the total over quota makes the run fail with
`MemoryError` (raised just after the write lands, so the quota is
briefly exceeded only in the failing run). -/
theorem c8_budget_bound (p : Params) (cs : Nat) (input : List Nat)
    (h : (runFull p cs input).err ≠ some .budget) :
    ∀ t ∈ (runFull p cs input).trace, t ≤ p.maxBytes :=
  runFull_trace_le p cs input h

/-- C8, witness: the amended theorem on the successful run `[1.5, NaN,
-2.0]` with a `2^62`-byte quota. -/
theorem c8_witness :
    (runFull cexParams 4
        [4609434218613702656, 9221120237041090560, 13835058055282163712]).err ≠
      some .budget ∧
    ∀ t ∈ (runFull cexParams 4
        [4609434218613702656, 9221120237041090560, 13835058055282163712]).trace,
      t ≤ cexParams.maxBytes :=
  ⟨by decide,
    c8_budget_bound cexParams 4
      [4609434218613702656, 9221120237041090560, 13835058055282163712] (by decide)⟩

/-! ### Claim C9 -/

/-- C9, counterexample to the claim as stated.  With a 10-byte quota and
input `[2.0]`, the 48-byte chunk file is written, its budget check
raises `MemoryError` BEFORE the file is appended to `chunks`, and the
`finally` block therefore never removes it: 48 bytes and the working
directory survive cleanup. -/
theorem c9_counterexample :
    (runFull cexParams9 1 [4611686018427387904]).err = some .budget ∧
    (runFull cexParams9 1 [4611686018427387904]).bytesAfter = 48 ∧
    (runFull cexParams9 1 [4611686018427387904]).wdRemoved = false := by
  refine ⟨by decide, by decide, by decide⟩

/-- C9, amended.  Cleanup runs on every exit path and never raises:
streaming errors are propagated unchanged, every TRACKED scratch file
(the `chunks` list and the tail file) is removed, and only the bytes of
a chunk file whose budget check failed — which was never added to
`chunks` — can remain, in which case the non-empty working directory is
left behind with a warning. -/
theorem c9_cleanup (p : Params) (cs : Nat) (input : List Nat) :
    (runFull p cs input).err = (runBody p cs input).err ∧
    (runFull p cs input).bytesAfter = (runBody p cs input).leaked.getD 0 ∧
    (runFull p cs input).wdRemoved = (runBody p cs input).leaked.isNone ∧
    (runFull p cs input).leakedBytes = (runBody p cs input).leaked.getD 0 :=
  ⟨rfl, runFull_bytesAfter p cs input, rfl, rfl⟩

/-! ### Claim C10 -/

/-- C10.  On an empty input the stream yields nothing, no chunk file and
no tail file is ever created, no error is raised, no scratch bytes
remain, and the working directory is removed. -/
theorem c10_empty_input (p : Params) (cs : Nat) :
    (runFull p cs []).output = [] ∧
    (runFull p cs []).createdChunks = 0 ∧
    (runFull p cs []).tailCreated = false ∧
    (runFull p cs []).wdRemoved = true ∧
    (runFull p cs []).err = none ∧
    (runFull p cs []).bytesAfter = 0 ∧
    (runFull p cs []).trace = [] := by
  have h : chunksOf cs ([] : List Nat) = [] := chunksOf_nil cs
  unfold runFull runBody
  rw [h]
  simp [st0, mergeAll, tailOut, removeFiles]

end XiSort
